import Mathlib

/-!
Shallow embedding of the chord-extraction core of `src/backend/app.py`
(`extract_chords`, `format_chord_chart`).

The transcript is modelled as a `List Char` (Python string indices =
positions in the list).  Each of the four regular expressions of the source
is hand-compiled into a deterministic matcher that reproduces Python `re`
semantics (leftmost alternation with backtracking, greedy quantifiers,
`\b` word boundaries, `re.IGNORECASE`); `re.finditer` is the scanner
`scanGo`, which retries at the next position after a failure and resumes at
the end of a match after a success.  Character classes are modelled at the
ASCII level (`\d` as ASCII digits, `\w` as ASCII alphanumerics or an
underscore, `[A-G]` under IGNORECASE as the fourteen letters `A`-`G`,
`a`-`g`), matching the intended use of the source on transcribed text.
-/

/-- Characters matched by `[A-G]` under `re.IGNORECASE`. -/
def noteChars : List Char :=
  ['A', 'B', 'C', 'D', 'E', 'F', 'G', 'a', 'b', 'c', 'd', 'e', 'f', 'g']

/-- Test for the `[A-G]` class (case-insensitive). -/
def isNote (c : Char) : Bool := noteChars.contains c

/-- A regex word character (`\w`), at the ASCII level. -/
def isWordChar (c : Char) : Bool := c.isAlphanum || c == '_'

/-- Characters matched by `[#b]` under `re.IGNORECASE`. -/
def isAccChar (c : Char) : Bool := c == '#' || c == 'b' || c == 'B'

/-- Case-insensitive character comparison (IGNORECASE literals). -/
def foldEq (a b : Char) : Bool := a.toLower == b.toLower

/-- `\b` at a position whose previous character is a word character:
the boundary holds iff no word character follows. -/
def noWordAhead : List Char → Bool
  | [] => true
  | c :: _ => !isWordChar c

/-- Whether the next character is a word character (the end of the input
counts as a non-word character). -/
def headWord : List Char → Bool
  | [] => false
  | c :: _ => isWordChar c

/-- General `\b`: exactly one of the two neighbouring characters is a
word character.  (`noWordAhead` is the special case of a word character
on the left, which holds after every letter or digit.) -/
def boundaryAt (prevW : Bool) (s : List Char) : Bool := prevW != headWord s

/-- Case-insensitive literal match; returns the rest of the input. -/
def litMatch : List Char → List Char → Option (List Char)
  | [], s => some s
  | _ :: _, [] => none
  | l :: ls, c :: cs => if foldEq l c then litMatch ls cs else none

/-- Drop a (possibly empty) run of whitespace: `\s*`. -/
def dropWs : List Char → List Char
  | [] => []
  | c :: cs => if c.isWhitespace then dropWs cs else c :: cs

/-- `\s+`: at least one whitespace character, consumed greedily.  (No
token that can follow `\s+` in the source patterns starts with
whitespace, so the greedy parse never needs to backtrack.) -/
def ws1 : List Char → Option (List Char)
  | [] => none
  | c :: cs => if c.isWhitespace then some (dropWs cs) else none

/-- Split off a maximal run of ASCII digits. -/
def digitSpan : List Char → List Char × List Char
  | [] => ([], [])
  | c :: cs =>
    if c.isDigit then
      let p := digitSpan cs
      (c :: p.1, p.2)
    else ([], c :: cs)

/-- `\d+`: a nonempty maximal digit run. -/
def digits1 (s : List Char) : Option (List Char × List Char) :=
  match digitSpan s with
  | ([], _) => none
  | (ds, rest) => some (ds, rest)

/-- `(?:\s*(\d+))?\b`: first try the group (whitespace, then digits, then
a boundary); reducing `\d+` or `\s*` cannot rescue a failed boundary, so
on failure fall back to the empty option followed by the boundary at the
original position. -/
def numTail (s : List Char) : Option (Option (List Char) × List Char) :=
  match digits1 (dropWs s) with
  | some (ds, rest) =>
    if noWordAhead rest then some (some ds, rest)
    else if noWordAhead s then some (none, s) else none
  | none => if noWordAhead s then some (none, s) else none

/-- The spoken-quality alternation `(major|minor|maj|min|diminished|augmented)`,
in the source's order. -/
def qualWords : List (List Char) :=
  ["major", "minor", "maj", "min", "diminished", "augmented"].map String.toList

/-- Ordered alternation over quality words, each followed by the
`(?:\s*(\d+))?\b` tail; a later alternative is tried when an earlier one
matches literally but its continuation fails (Python backtracking). -/
def tryQuals : List (List Char) → List Char → Option (List Char × Option (List Char) × List Char)
  | [], _ => none
  | q :: qs, s =>
    match litMatch q s with
    | some rest =>
      match numTail rest with
      | some (num, rest2) => some (q, num, rest2)
      | none => tryQuals qs s
    | none => tryQuals qs s

/-- `(flat|sharp)`: returns `true` for flat.  The two words start with
different letters, so at most one alternative can match literally. -/
def tryMod (s : List Char) : Option (Bool × List Char) :=
  match litMatch "flat".toList s with
  | some rest => some (true, rest)
  | none =>
    match litMatch "sharp".toList s with
    | some rest => some (false, rest)
    | none => none

/-- Result of the modifier+quality phrase pattern (layer A):
`\b([A-G])\s+(flat|sharp)\s+(major|minor|maj|min|diminished|augmented)(?:\s*(\d+))?\b`. -/
structure MA where
  note : Char
  flat : Bool
  qual : List Char
  num : Option (List Char)
  rest : List Char
deriving Repr, DecidableEq

/-- Matcher for layer A at one position (the caller has checked the
leading `\b`). -/
def matchA : List Char → Option MA
  | [] => none
  | c :: s1 =>
    if isNote c then
      match ws1 s1 with
      | some s2 =>
        match tryMod s2 with
        | some (fl, s3) =>
          match ws1 s3 with
          | some s4 =>
            match tryQuals qualWords s4 with
            | some (q, num, rest) => some ⟨c, fl, q, num, rest⟩
            | none => none
          | none => none
        | none => none
      | none => none
    else none

/-- Result of the bare modifier pattern (layer B): `\b([A-G])\s+(flat|sharp)\b`. -/
structure MB where
  note : Char
  flat : Bool
  rest : List Char
deriving Repr, DecidableEq

/-- Matcher for layer B at one position.  If `flat` matches literally but
the final boundary fails, Python retries `sharp`, which cannot match a
text that starts with `f`; so the failure is final. -/
def matchB : List Char → Option MB
  | [] => none
  | c :: s1 =>
    if isNote c then
      match ws1 s1 with
      | some s2 =>
        match litMatch "flat".toList s2 with
        | some rest => if noWordAhead rest then some ⟨c, true, rest⟩ else none
        | none =>
          match litMatch "sharp".toList s2 with
          | some rest => if noWordAhead rest then some ⟨c, false, rest⟩ else none
          | none => none
      | none => none
    else none

/-- Result of the quality phrase pattern (layer C):
`\b([A-G][#b]?)\s+(major|minor|maj|min|diminished|augmented)(?:\s*(\d+))?\b`. -/
structure MC where
  noteg : List Char
  qual : List Char
  num : Option (List Char)
  rest : List Char
deriving Repr, DecidableEq

/-- The `\s+` and quality tail shared by the two widths of the layer-C
note group. -/
def matchCcore (s : List Char) : Option (List Char × Option (List Char) × List Char) :=
  match ws1 s with
  | some s2 => tryQuals qualWords s2
  | none => none

/-- Matcher for layer C at one position; `[#b]?` is greedy, so the
two-character note group is tried first and the matcher backtracks to the
single letter when the rest fails. -/
def matchC : List Char → Option MC
  | [] => none
  | c :: s1 =>
    if isNote c then
      match s1 with
      | a :: s2 =>
        if isAccChar a then
          match matchCcore s2 with
          | some (q, num, rest) => some ⟨[c, a], q, num, rest⟩
          | none =>
            match matchCcore s1 with
            | some (q, num, rest) => some ⟨[c], q, num, rest⟩
            | none => none
        else
          match matchCcore s1 with
          | some (q, num, rest) => some ⟨[c], q, num, rest⟩
          | none => none
      | [] => none
    else none

/-- The inline quality alternation of the bare chord pattern (layer D),
in the source's order. -/
def dQuals : List (List Char) :=
  ["m", "maj", "min", "dim", "aug", "sus2", "sus4", "7", "9", "11", "13",
   "add2", "add4", "add9", "m7", "maj7", "dim7", "aug7"].map String.toList

/-- Result of the bare chord pattern (layer D):
`\b([A-G][#b]?)(m|maj|min|dim|aug|sus[24]|7|9|11|13|add[249]|m7|maj7|dim7|aug7)?\b`.
`qual` is the canonical lowercase form of the matched alternative (the
IGNORECASE match lowercases to it, which is all later code uses). -/
structure MD where
  noteg : List Char
  qual : Option (List Char)
  rest : List Char
deriving Repr, DecidableEq

/-- Ordered alternation over inline qualities, each followed by `\b`. -/
def tryQualsD : List (List Char) → List Char → Option (List Char × List Char)
  | [], _ => none
  | q :: qs, s =>
    match litMatch q s with
    | some rest => if noWordAhead rest then some (q, rest) else tryQualsD qs s
    | none => tryQualsD qs s

/-- Layer-D tail after the note group: a quality alternative with its
boundary, or the empty quality followed by the boundary.  Every quality
alternative ends in a letter or digit, so its trailing `\b` is
`noWordAhead`; with the empty quality the character before the `\b` is
the last of the note group, which can be `#` (not a word character), so
the general boundary test is needed there (`lastW` is whether that last
character is a word character). -/
def matchDnote (note : List Char) (lastW : Bool) (s : List Char) : Option MD :=
  match tryQualsD dQuals s with
  | some (q, rest) => some ⟨note, some q, rest⟩
  | none => if boundaryAt lastW s then some ⟨note, none, s⟩ else none

/-- Matcher for layer D at one position; the greedy `[#b]?` backtracks to
the bare letter when the tail (including the final `\b`) fails. -/
def matchD : List Char → Option MD
  | [] => none
  | c :: s1 =>
    if isNote c then
      match s1 with
      | a :: s2 =>
        if isAccChar a then
          match matchDnote [c, a] (isWordChar a) s2 with
          | some r => some r
          | none => matchDnote [c] (isWordChar c) s1
        else matchDnote [c] (isWordChar c) s1
      | [] => matchDnote [c] (isWordChar c) s1
    else none

/-- `re.finditer`: scan left to right; every pattern starts with `\b`
followed by a word character, so a match is attempted only when the
previous character is not a word character.  After a match the scan
resumes at its end.  `fuel` only bounds the recursion; every match
consumes at least one character, so `fuel = s.length` never runs out. -/
def scanGo {M : Type} (f : List Char → Option M) (restOf : M → List Char) :
    Nat → List Char → Nat → Bool → List (Nat × M)
  | 0, _, _, _ => []
  | _ + 1, [], _, _ => []
  | fuel + 1, c :: cs, pos, prevW =>
    match (if prevW then none else f (c :: cs)) with
    | some m =>
      let k0 := (c :: cs).length - (restOf m).length
      let k := if k0 = 0 then 1 else k0
      (pos, m) ::
        scanGo f restOf fuel ((c :: cs).drop k) (pos + k)
          (isWordChar ((c :: cs).getD (k - 1) ' '))
    | none => scanGo f restOf fuel cs (pos + 1) (isWordChar c)

/-- All layer-A matches of a text, with their start offsets. -/
def scanA (text : List Char) : List (Nat × MA) :=
  scanGo matchA MA.rest text.length text 0 false

/-- All layer-B matches of a text. -/
def scanB (text : List Char) : List (Nat × MB) :=
  scanGo matchB MB.rest text.length text 0 false

/-- All layer-C matches of a text. -/
def scanC (text : List Char) : List (Nat × MC) :=
  scanGo matchC MC.rest text.length text 0 false

/-- All layer-D matches of a text. -/
def scanD (text : List Char) : List (Nat × MD) :=
  scanGo matchD MD.rest text.length text 0 false

/-- `re.sub(r'[-–—]', ' ', text)`. -/
def normChar (c : Char) : Char :=
  if c = '-' ∨ c = '–' ∨ c = '—' then ' ' else c

/-- Hyphen/en-dash/em-dash normalization of the transcript. -/
def normalizeText (t : List Char) : List Char := t.map normChar

/-- `str.lower` on the characters of a matched group (ASCII). -/
def lowerStr (l : List Char) : List Char := l.map Char.toLower

/-- `str.capitalize`: first character uppercased, the rest lowercased. -/
def pyCapitalize : List Char → List Char
  | [] => []
  | c :: cs => c.toUpper :: lowerStr cs

/-- `quality in ['minor', 'min']`. -/
def isMinorWord (q : List Char) : Bool :=
  q == "minor".toList || q == "min".toList

/-- The chord construction shared verbatim by layers A and C:
minor/min appends `m`; otherwise `maj` is appended only when a number is
present; a number is always appended last. -/
def phraseChord (base : List Char) (q : List Char) (num : Option (List Char)) :
    List Char :=
  let chord :=
    if isMinorWord q then base ++ ['m']
    else base ++ (if num.isSome then "maj".toList else [])
  match num with
  | some ds => chord ++ ds
  | none => chord

/-- `str.endswith` on character lists. -/
def endsWithL (s suf : List Char) : Bool :=
  decide (suf.length ≤ s.length) && s.drop (s.length - suf.length) == suf

/-- Layer D's suffix canonicalization: strip a trailing literal `maj`,
replace a trailing literal `min` by `m`. -/
def stripMajMin (chord : List Char) : List Char :=
  if endsWithL chord "maj".toList then chord.take (chord.length - 3)
  else if endsWithL chord "min".toList then chord.take (chord.length - 3) ++ ['m']
  else chord

/-- The extractor's working state: the `(start, chord)` list and the two
claimed-note sets (sets of lowercase strings, modelled as lists with
membership). -/
structure ExtState where
  positions : List (Nat × List Char)
  fsNotes : List (List Char)
  phNotes : List (List Char)
deriving Repr

/-- Processing of one layer-A match: record the claimed note and base,
build the chord, append the `(start, chord)` pair. -/
def stepA (st : ExtState) (pm : Nat × MA) : ExtState :=
  let noteU := pm.2.note.toUpper
  let base := [noteU, if pm.2.flat then 'b' else '#']
  { positions := st.positions ++ [(pm.1, phraseChord base pm.2.qual pm.2.num)]
    fsNotes := [pm.2.note.toLower] :: st.fsNotes
    phNotes := lowerStr base :: st.phNotes }

/-- Processing of one layer-B match: skip it when a previously recorded
match starts at the same offset (`abs(start - pos) < 1` on integers);
otherwise claim the note and append the base token. -/
def stepB (st : ExtState) (pm : Nat × MB) : ExtState :=
  if st.positions.any (fun pr => pr.1 == pm.1) then st
  else
    { positions :=
        st.positions ++ [(pm.1, [pm.2.note.toUpper, if pm.2.flat then 'b' else '#'])]
      fsNotes := [pm.2.note.toLower] :: st.fsNotes
      phNotes := st.phNotes }

/-- Processing of one layer-C match: skip notes already claimed by a
flat/sharp phrase; otherwise claim the note and append the phrase chord. -/
def stepC (st : ExtState) (pm : Nat × MC) : ExtState :=
  let note := pyCapitalize pm.2.noteg
  if st.fsNotes.contains (lowerStr note) then st
  else
    { positions := st.positions ++ [(pm.1, phraseChord note pm.2.qual pm.2.num)]
      fsNotes := st.fsNotes
      phNotes := lowerStr note :: st.phNotes }

/-- Processing of one layer-D match: skip a claimed note that carries no
inline quality; otherwise capitalize the whole matched token and apply
the `maj`/`min` suffix canonicalization. -/
def stepD (st : ExtState) (pm : Nat × MD) : ExtState :=
  if (st.phNotes.contains (lowerStr pm.2.noteg)
        || st.fsNotes.contains (lowerStr pm.2.noteg))
      && pm.2.qual.isNone then st
  else
    { positions := st.positions ++
        [(pm.1, stripMajMin (pyCapitalize (pm.2.noteg ++ pm.2.qual.getD [])))]
      fsNotes := st.fsNotes
      phNotes := st.phNotes }

/-- The four layers run in order over the same normalized text, threading
the claimed-note sets and the match list. -/
def runLayers (text : List Char) : ExtState :=
  let st0 : ExtState := ⟨[], [], []⟩
  let stA := (scanA text).foldl stepA st0
  let stB := (scanB text).foldl stepB stA
  let stC := (scanC text).foldl stepC stB
  (scanD text).foldl stepD stC

/-- The raw `(start, chord)` pairs, in the order the layers appended them. -/
def rawPositions (t : List Char) : List (Nat × List Char) :=
  (runLayers (normalizeText t)).positions

/-- One step of Python's stable `positions.sort(key=lambda x: x[0])`:
insert after all entries with a key `≤` the new one. -/
def insOff (x : Nat × List Char) : List (Nat × List Char) → List (Nat × List Char)
  | [] => [x]
  | y :: ys => if x.1 < y.1 then x :: y :: ys else y :: insOff x ys

/-- Stable sort by start offset (insertion order preserved on ties, as
Python's Timsort guarantees). -/
def pySort (l : List (Nat × List Char)) : List (Nat × List Char) :=
  l.foldl (fun acc x => insOff x acc) []

/-- First-occurrence dedup with a `seen` set. -/
def dedupGo (seen : List (List Char)) : List (List Char) → List (List Char)
  | [] => []
  | c :: cs => if seen.contains c then dedupGo seen cs else c :: dedupGo (c :: seen) cs

/-- `extract_chords` over a character list. -/
def extractL (t : List Char) : List (List Char) :=
  dedupGo [] ((pySort (rawPositions t)).map Prod.snd)

/-- `extract_chords` of `src/backend/app.py`. -/
def extract_chords (t : String) : List String :=
  (extractL t.data).map fun l => ⟨l⟩

/-- `"=" * 50`. -/
def sepLine : String := ⟨List.replicate 50 '='⟩

/-- `format_chord_chart` of `src/backend/app.py`. -/
def format_chord_chart (chords : List String) (transcription : String) : String :=
  if chords = [] then
    "Transcription: " ++ transcription ++
      "\n\nNo chords detected in the transcription."
  else
    "Chord Chart\n" ++ (sepLine ++ "\n\n") ++
      ("Chords: " ++ String.intercalate "  " chords ++ "\n\n") ++
      ("Transcription: " ++ transcription ++ "\n")

/-!
## Sort and dedup analysis

`positions.sort(key=lambda x: x[0])` is a stable sort: entries with equal
start offsets keep the order in which the four layers appended them.  To
reason about it, each raw entry is annotated with its append index; the
stable sort by offset then coincides with the (unique) sort by the strict
lexicographic order on `(offset, append index)` keys.  `firstMatch`
computes, for a chord symbol, the key of its first recorded match: the
smallest `(offset, append index)` among the raw entries carrying that
symbol. -/

/-- Strict lexicographic order on `(start offset, append index)` keys:
earlier offset first, ties broken by the order in which the layers
appended the entries. -/
def keyLt (a b : Nat × Nat) : Prop := a.1 < b.1 ∨ (a.1 = b.1 ∧ a.2 < b.2)

instance (a b : Nat × Nat) : Decidable (keyLt a b) := by
  unfold keyLt; infer_instance

/-- Annotation of the raw entries, from a given append index on:
`(offset, chord)` at append index `i` becomes `((offset, i), chord)`. -/
def annotFrom (n : Nat) (l : List (Nat × List Char)) :
    List ((Nat × Nat) × List Char) :=
  (l.enumFrom n).map fun p => ((p.2.1, p.1), p.2.2)

/-- Annotation of the whole raw list. -/
def annot (l : List (Nat × List Char)) : List ((Nat × Nat) × List Char) :=
  annotFrom 0 l

/-- Insertion step of the keyed sort. -/
def insKey (x : (Nat × Nat) × List Char) :
    List ((Nat × Nat) × List Char) → List ((Nat × Nat) × List Char)
  | [] => [x]
  | y :: ys => if keyLt x.1 y.1 then x :: y :: ys else y :: insKey x ys

/-- Insertion sort by the lexicographic key. -/
def sortKey (l : List ((Nat × Nat) × List Char)) :
    List ((Nat × Nat) × List Char) :=
  l.foldl (fun acc x => insKey x acc) []

/-- Forgetting the append index of an annotated entry. -/
def projOff (e : (Nat × Nat) × List Char) : Nat × List Char := (e.1.1, e.2)

/-- The keys of all entries of an annotated list that carry a given
chord symbol. -/
def candsOf (L : List ((Nat × Nat) × List Char)) (c : List Char) :
    List (Nat × Nat) :=
  L.filterMap fun e => if e.2 = c then some e.1 else none

/-- Minimum of two keys in the lexicographic order. -/
def keyMin (a b : Nat × Nat) : Nat × Nat := if keyLt b a then b else a

/-- The key — `(start offset, append index)`, minimal in the
lexicographic order — of the first recorded match of a chord symbol in
the raw `(offset, chord)` list, or `none` if the symbol was never
recorded. -/
def firstMatch (l : List (Nat × List Char)) (c : List Char) :
    Option (Nat × Nat) :=
  match candsOf (annot l) c with
  | [] => none
  | k :: ks => some (ks.foldl keyMin k)

/-- The key of the first entry of an annotated list carrying a given
chord symbol. -/
def findKey (L : List ((Nat × Nat) × List Char)) (c : List Char) :
    Option (Nat × Nat) :=
  (L.find? fun e => e.2 == c).map fun e => e.1

/-!
## Shape predicates for the output invariants
-/

/-- Every alphabetic character of the list is lowercase. -/
def goodTail (rest : List Char) : Prop :=
  ∀ x ∈ rest, x.isAlpha = true → x.isLower = true

/-- A well-shaped chord symbol: it starts with an uppercase letter in
`A`-`G` and every alphabetic character after the first is lowercase. -/
def goodSym : List Char → Prop
  | [] => False
  | u :: rest => ('A' ≤ u ∧ u ≤ 'G') ∧ goodTail rest

instance (l : List Char) : Decidable (goodTail l) := by
  unfold goodTail; infer_instance

instance : (l : List Char) → Decidable (goodSym l)
  | [] => isFalse fun h => h
  | _ :: _ => inferInstanceAs (Decidable (_ ∧ _))

/-- A chord symbol ending in neither of the bare literal suffixes
`maj` and `min`. -/
def noMajMin (chord : List Char) : Prop :=
  endsWithL chord "maj".toList = false ∧ endsWithL chord "min".toList = false

/-- The invariant satisfied by every recorded chord symbol. -/
def okChord (chord : List Char) : Prop := goodSym chord ∧ noMajMin chord

/-- A captured number group is either absent or a nonempty digit run. -/
def numOk (num : Option (List Char)) : Prop :=
  ∀ ds, num = some ds → ds ≠ [] ∧ ∀ d ∈ ds, d.isDigit = true

/-- The note-group shape produced by the `[A-G][#b]?` captures. -/
def notegOk (noteg : List Char) : Prop :=
  (∃ c, noteg = [c] ∧ isNote c = true) ∨
  (∃ c a, noteg = [c, a] ∧ isNote c = true ∧ isAccChar a = true)

/-!
## The re-parseable output vocabulary

For the idempotence analysis: the canonical chord symbols that the bare
chord-token layer recognizes in isolation.  A symbol is an uppercase note
letter, an optional accidental (`b` or `#`), and an optional inline
quality suffix.  Two families of extractor outputs are *not* in this
vocabulary, and each breaks idempotence: symbols with a spoken-number
suffix outside the inline list (`Cmaj2`, `Cm9`, …), and bare sharp
symbols (`C#`), whose trailing `\b` fails after the non-word `#`.
`maj`/`min` suffixes are excluded as well — the extractor never outputs
them bare. -/

/-- The uppercase note letters. -/
def upperNotes : List Char := ['A', 'B', 'C', 'D', 'E', 'F', 'G']

/-- The accidental options of a canonical symbol. -/
def accOpts : List (List Char) := [[], ['b'], ['#']]

/-- The suffix options of a re-parseable canonical symbol: the inline
vocabulary minus `maj` and `min`, or no suffix. -/
def sufOpts : List (List Char) :=
  ["", "m", "dim", "aug", "sus2", "sus4", "7", "9", "11", "13",
   "add2", "add4", "add9", "m7", "maj7", "dim7", "aug7"].map String.toList

/-- The re-parseable canonical symbols: note, optional accidental,
optional inline suffix, excluding the bare sharp forms. -/
def vocab : List (List Char) :=
  upperNotes.flatMap fun u =>
    accOpts.flatMap fun mid =>
      sufOpts.filterMap fun qt =>
        if mid = ['#'] ∧ qt = [] then none else some (u :: mid ++ qt)

/-- The note group of a canonical symbol (the first character plus an
accidental when present). -/
def splitSym (s : List Char) : List Char × List Char :=
  match s with
  | u :: a :: rest => if a = 'b' ∨ a = '#' then ([u, a], rest) else ([u], a :: rest)
  | u :: [] => ([u], [])
  | [] => ([], [])

/-- The inline quality group the bare chord pattern captures on a
canonical symbol. -/
def symQual (s : List Char) : Option (List Char) :=
  if (splitSym s).2 = [] then none else some (splitSym s).2

/-- Space-separated concatenation of symbols. -/
def concatSyms : List (List Char) → List Char
  | [] => []
  | [s] => s
  | s :: rest => s ++ ' ' :: concatSyms rest

/-- The layer-D matches expected on a concatenation of canonical
symbols, with their start offsets. -/
def expectedD : List (List Char) → Nat → List (Nat × MD)
  | [], _ => []
  | [s], pos => [(pos, ⟨(splitSym s).1, symQual s, []⟩)]
  | s :: rest, pos =>
    (pos, ⟨(splitSym s).1, symQual s, ' ' :: concatSyms rest⟩) ::
      expectedD rest (pos + s.length + 1)

/-- The texts that arise as space-separated concatenations of
re-parseable canonical symbols. -/
inductive ConcatShape : List Char → Prop
  | nil : ConcatShape []
  | last (s : List Char) (hs : s ∈ vocab) : ConcatShape s
  | cons (s : List Char) (hs : s ∈ vocab) (rest : List Char)
      (hrest : ConcatShape rest) (hne : rest ≠ []) :
      ConcatShape (s ++ ' ' :: rest)

/-- A text that begins with a re-parseable canonical symbol, followed by
nothing or by a space. -/
def NextSym (r : List Char) : Prop :=
  ∃ s2 r2, r = s2 ++ r2 ∧ s2 ∈ vocab ∧ (r2 = [] ∨ ∃ r3, r2 = ' ' :: r3)

/-- The characters that can follow the note letter in a re-parseable
canonical symbol. -/
def secondChars : List Char := ['b', '#', 'm', 'd', 'a', 's', '7', '9', '1']

/-- The literals the phrase layers try after their `\s+`: the two
modifier words and the six quality words. -/
def allRejLits : List (List Char) :=
  ["flat", "sharp", "major", "minor", "maj", "min", "diminished", "augmented"].map
    String.toList

/-!
## Theorems
-/

/-- C2: `extract_chords` is total — it is a function into `List String`
returning a value on every input string — and on the empty string it
returns the empty list. -/
theorem claim_C2 :
    (∀ s : String, ∃ l : List String, extract_chords s = l) ∧
    extract_chords "" = [] :=
  ⟨fun s => ⟨extract_chords s, rfl⟩, rfl⟩

/-- C6: `extract_chords "B-flat minor, C-major 7."` is exactly
`["Bbm", "Cmaj7"]`: the hyphens are normalized to spaces and the
modifier+quality phrase layer (resp. the quality phrase layer) matches
the two spoken phrases. -/
theorem claim_C6 : extract_chords "B-flat minor, C-major 7." = ["Bbm", "Cmaj7"] := by
  decide

/-- C8: the claimed-note sets are global over the whole transcript: in
`"C and C sharp"` the bare `C` at offset 0 precedes the claiming phrase
`C sharp` at offset 6, yet it is suppressed and only `C#` is emitted;
symmetrically a bare occurrence after the phrase is suppressed too. -/
theorem claim_C8 :
    extract_chords "C and C sharp" = ["C#"] ∧
    extract_chords "C sharp and C" = ["C#"] := by
  constructor <;> decide

/-- C10: the claimed-by-flat/sharp check of the quality-phrase layer
compares the full note group including an inline accidental, so the
spoken phrase `B flat` (which claims the bare letter `b`) does not
suppress the later phrase `Bb minor` (whose note group is `bb`). -/
theorem claim_C10 : extract_chords "B flat then Bb minor" = ["Bb", "Bbm"] := by
  decide

/-- C5 counterexample: `"D diminished"` does not produce a chord symbol
carrying the quality token `dim`; the output is exactly `["D"]`. -/
theorem claim_C5_counterexample :
    extract_chords "D diminished" = ["D"] ∧
    "Ddim" ∉ extract_chords "D diminished" := by
  constructor <;> decide

/-- C5 amended: the spoken quality words `diminished` and `augmented`
are recognized by the phrase layers but contribute no `dim`/`aug` token:
the phrase chord constructor treats them exactly like `major` (a `maj`
suffix appears only when a spoken number follows, otherwise the bare
base is emitted); `dim`/`aug` tokens arise only from inline notation. -/
theorem claim_C5_amended :
    (∀ (base : List Char) (num : Option (List Char)),
      phraseChord base "diminished".toList num = phraseChord base "major".toList num ∧
      phraseChord base "augmented".toList num = phraseChord base "major".toList num) ∧
    extract_chords "D diminished" = ["D"] ∧
    extract_chords "B flat augmented" = ["Bb"] ∧
    extract_chords "D diminished 7" = ["Dmaj7"] ∧
    extract_chords "Ddim7" = ["Ddim7"] := by
  refine ⟨fun base num => ⟨rfl, rfl⟩, ?_, ?_, ?_, ?_⟩ <;> decide

/-- C3 counterexample: `"Cmaj2"` is a symbol `extract_chords` itself can
output (from the transcript `"C major 2"`), yet running the extractor on
the (one-element) space-separated concatenation of that output returns
`[]`, not the same symbols; likewise the output `"C#"` (from
`"C sharp"`) is re-extracted as `"C"`, because the bare chord pattern's
trailing word boundary fails right after the non-word character `#`. -/
theorem claim_C3_counterexample :
    (extract_chords "C major 2" = ["Cmaj2"] ∧
      extract_chords "Cmaj2" = []) ∧
    (extract_chords "C sharp" = ["C#"] ∧
      extract_chords "C#" = ["C"]) := by
  refine ⟨⟨?_, ?_⟩, ?_, ?_⟩ <;> decide

/-- C7: `format_chord_chart` always embeds the transcription in its
result; with an empty chord list the result carries the fallback
message, and with a non-empty chord list it begins with the fixed
`Chord Chart` header followed by the 50-character separator line. -/
theorem claim_C7 (cs : List String) (t : String) :
    (∃ a b : String, format_chord_chart cs t = a ++ (t ++ b)) ∧
    (cs = [] → ∃ a : String, format_chord_chart cs t =
        a ++ "No chords detected in the transcription.") ∧
    (cs ≠ [] → ∃ rest : String, format_chord_chart cs t =
        "Chord Chart\n" ++ ((sepLine ++ "\n\n") ++ rest)) := by
  by_cases h : cs = []
  · subst h
    have e : format_chord_chart [] t =
        ("Transcription: " ++ t) ++ "\n\nNo chords detected in the transcription." := rfl
    have l2 : ("\n\nNo chords detected in the transcription." : String) =
        "\n\n" ++ "No chords detected in the transcription." := rfl
    refine ⟨⟨"Transcription: ", "\n\nNo chords detected in the transcription.", ?_⟩,
      fun _ => ⟨"Transcription: " ++ (t ++ "\n\n"), ?_⟩, fun hne => absurd rfl hne⟩
    · rw [e, String.append_assoc]
    · rw [e]
      simp only [String.append_assoc]
      rw [l2]
  · refine ⟨⟨"Chord Chart\n" ++ (sepLine ++ "\n\n") ++
        ("Chords: " ++ String.intercalate "  " cs ++ "\n\n") ++ "Transcription: ",
        "\n", ?_⟩, fun he => absurd he h,
      fun _ => ⟨("Chords: " ++ String.intercalate "  " cs ++ "\n\n") ++
        ("Transcription: " ++ t ++ "\n"), ?_⟩⟩
    · simp only [format_chord_chart, if_neg h, String.append_assoc]
    · simp only [format_chord_chart, if_neg h, String.append_assoc]

/-- C7 witness: the fallback and header cases at concrete inputs. -/
theorem claim_C7_witness :
    ((∃ a b : String, format_chord_chart [] "hi" = a ++ ("hi" ++ b)) ∧
      (([] : List String) = [] → ∃ a : String, format_chord_chart [] "hi" =
        a ++ "No chords detected in the transcription.")) ∧
    ((∃ a b : String, format_chord_chart ["C"] "hi" = a ++ ("hi" ++ b)) ∧
      (["C"] ≠ ([] : List String) → ∃ rest : String, format_chord_chart ["C"] "hi" =
        "Chord Chart\n" ++ ((sepLine ++ "\n\n") ++ rest))) :=
  ⟨⟨(claim_C7 [] "hi").1, (claim_C7 [] "hi").2.1⟩,
   ⟨(claim_C7 ["C"] "hi").1, (claim_C7 ["C"] "hi").2.2⟩⟩

/-- `keyLt` is irreflexive. -/
theorem keyLt_irrefl (a : Nat × Nat) : ¬ keyLt a a := by
  unfold keyLt; omega

/-- `keyLt` is transitive. -/
theorem keyLt_trans {a b c : Nat × Nat} (h1 : keyLt a b) (h2 : keyLt b c) :
    keyLt a c := by
  unfold keyLt at *; omega

/-- Two keys neither of which is below the other are equal. -/
theorem keyLt_antisymm {a b : Nat × Nat} (h1 : ¬ keyLt a b) (h2 : ¬ keyLt b a) :
    a = b := by
  unfold keyLt at *
  have : a.1 = b.1 ∧ a.2 = b.2 := by omega
  exact Prod.ext this.1 this.2

/-- Inserting with `insKey` yields a permutation of consing. -/
theorem insKey_perm (x : (Nat × Nat) × List Char)
    (acc : List ((Nat × Nat) × List Char)) :
    List.Perm (insKey x acc) (x :: acc) := by
  induction acc with
  | nil => simp [insKey]
  | cons y ys ih =>
    unfold insKey
    by_cases h : keyLt x.1 y.1
    · simp [h]
    · simp only [h, if_false]
      exact (ih.cons y).trans (List.Perm.swap x y ys)

/-- The keyed sort permutes its input. -/
theorem sortKey_perm_aux (l : List ((Nat × Nat) × List Char)) :
    ∀ acc, List.Perm (l.foldl (fun a x => insKey x a) acc) (l ++ acc) := by
  induction l with
  | nil => intro acc; simp [List.Perm.refl]
  | cons x xs ih =>
    intro acc
    have h1 := ih (insKey x acc)
    have h2 : List.Perm (xs ++ insKey x acc) (xs ++ x :: acc) :=
      List.Perm.append_left xs (insKey_perm x acc)
    have h3 : List.Perm (xs ++ x :: acc) (x :: (xs ++ acc)) := List.perm_middle
    simpa using (h1.trans h2).trans h3

/-- The keyed sort permutes its input. -/
theorem sortKey_perm (l : List ((Nat × Nat) × List Char)) :
    List.Perm (sortKey l) l := by
  simpa using sortKey_perm_aux l []

/-- `insKey` preserves sortedness by the reflexive order `¬ keyLt · ·`. -/
theorem insKey_pairwise {acc : List ((Nat × Nat) × List Char)}
    (x : (Nat × Nat) × List Char)
    (h : acc.Pairwise fun a b => ¬ keyLt b.1 a.1) :
    (insKey x acc).Pairwise fun a b => ¬ keyLt b.1 a.1 := by
  induction acc with
  | nil => simp [insKey]
  | cons y ys ih =>
    rcases List.pairwise_cons.mp h with ⟨hy, hys⟩
    unfold insKey
    by_cases hlt : keyLt x.1 y.1
    · simp only [hlt, if_true]
      refine List.pairwise_cons.mpr ⟨?_, h⟩
      intro z hz
      rcases List.mem_cons.mp hz with hz | hz
      · subst hz
        intro hc
        exact keyLt_irrefl _ (keyLt_trans hc hlt)
      · intro hc
        exact hy z hz (keyLt_trans hc hlt)
    · simp only [hlt, if_false]
      refine List.pairwise_cons.mpr ⟨?_, ih hys⟩
      intro z hz
      rcases List.mem_cons.mp ((insKey_perm x ys).mem_iff.mp hz) with hz | hz
      · subst hz; exact hlt
      · exact hy z hz

/-- The keyed sort is sorted by the reflexive order. -/
theorem sortKey_pairwise_le_aux (l : List ((Nat × Nat) × List Char)) :
    ∀ acc, acc.Pairwise (fun a b => ¬ keyLt b.1 a.1) →
      (l.foldl (fun a x => insKey x a) acc).Pairwise fun a b => ¬ keyLt b.1 a.1 := by
  induction l with
  | nil => intro acc h; simpa using h
  | cons x xs ih => intro acc h; exact ih _ (insKey_pairwise x h)

/-- The keyed sort is sorted by the reflexive order. -/
theorem sortKey_pairwise_le (l : List ((Nat × Nat) × List Char)) :
    (sortKey l).Pairwise fun a b => ¬ keyLt b.1 a.1 :=
  sortKey_pairwise_le_aux l [] (by simp)

/-- Members of `annotFrom n l` have append index at least `n`. -/
theorem annotFrom_idx_ge {n : Nat} {l : List (Nat × List Char)}
    {y : (Nat × Nat) × List Char} (h : y ∈ annotFrom n l) : n ≤ y.1.2 := by
  unfold annotFrom at h
  rcases List.mem_map.mp h with ⟨p, hp, rfl⟩
  exact List.le_fst_of_mem_enumFrom hp

/-- `annotFrom` unfolds one element at a time. -/
theorem annotFrom_cons (n : Nat) (x : Nat × List Char) (l : List (Nat × List Char)) :
    annotFrom n (x :: l) = ((x.1, n), x.2) :: annotFrom (n + 1) l := by
  simp [annotFrom, List.enumFrom]

/-- Append indices are pairwise distinct along `annotFrom`. -/
theorem annotFrom_idx_pairwise (n : Nat) (l : List (Nat × List Char)) :
    (annotFrom n l).Pairwise fun a b => a.1.2 < b.1.2 := by
  induction l generalizing n with
  | nil => simp [annotFrom]
  | cons x xs ih =>
    rw [annotFrom_cons]
    refine List.pairwise_cons.mpr ⟨?_, ih (n + 1)⟩
    intro y hy
    exact Nat.lt_of_lt_of_le (Nat.lt_succ_self n) (annotFrom_idx_ge hy)

/-- The keyed sort of an annotated list is strictly sorted: the keys are
pairwise distinct (distinct append indices), so the reflexive sortedness
upgrades to `keyLt`. -/
theorem sortKey_pairwise_keyLt (l : List (Nat × List Char)) :
    (sortKey (annot l)).Pairwise fun a b => keyLt a.1 b.1 := by
  have hle := sortKey_pairwise_le (annot l)
  have hidx : (sortKey (annot l)).Pairwise fun a b => a.1.2 ≠ b.1.2 := by
    have hsym : ∀ {x y : (Nat × Nat) × List Char},
        (fun a b => a.1.2 ≠ b.1.2) x y → (fun a b => a.1.2 ≠ b.1.2) y x :=
      fun h => h.symm
    exact ((sortKey_perm (annot l)).pairwise_iff hsym).mpr
      ((annotFrom_idx_pairwise 0 l).imp fun h => Nat.ne_of_lt h)
  refine (hle.and hidx).imp ?_
  rintro a b ⟨h1, h2⟩
  rcases Nat.lt_or_ge a.1.1 b.1.1 with h | h
  · exact Or.inl h
  · unfold keyLt at *
    omega

/-- Mapping the insertion by key to the insertion by offset: when the new
entry's append index dominates the accumulator, the key comparison
degenerates to the offset comparison. -/
theorem insKey_map_projOff {acc : List ((Nat × Nat) × List Char)}
    {x : (Nat × Nat) × List Char} (h : ∀ y ∈ acc, y.1.2 < x.1.2) :
    (insKey x acc).map projOff = insOff (projOff x) (acc.map projOff) := by
  induction acc with
  | nil => simp [insKey, insOff]
  | cons y ys ih =>
    have hy : y.1.2 < x.1.2 := h y (List.mem_cons_self y ys)
    have hiff : keyLt x.1 y.1 ↔ x.1.1 < y.1.1 := by
      unfold keyLt; omega
    unfold insKey
    by_cases hlt : keyLt x.1 y.1
    · have hofflt : (projOff x).1 < (projOff y).1 := by
        simpa [projOff] using hiff.mp hlt
      simp [hlt, insOff, hofflt]
    · have hoffge : ¬ (projOff x).1 < (projOff y).1 := by
        simpa [projOff] using fun hc => hlt (hiff.mpr hc)
      simp only [hlt, if_false, List.map_cons]
      rw [ih fun z hz => h z (List.mem_cons_of_mem y hz)]
      simp [insOff, hoffge]

/-- The stable offset sort of the source equals the keyed sort of the
annotated list, with the append indices forgotten. -/
theorem foldl_sort_bridge (l : List (Nat × List Char)) :
    ∀ (n : Nat) (acc : List ((Nat × Nat) × List Char)),
      (∀ y ∈ acc, y.1.2 < n) →
      ((annotFrom n l).foldl (fun a x => insKey x a) acc).map projOff =
        l.foldl (fun a x => insOff x a) (acc.map projOff) := by
  induction l with
  | nil => intro n acc _; simp [annotFrom]
  | cons x xs ih =>
    intro n acc hacc
    rw [annotFrom_cons]
    simp only [List.foldl_cons]
    have hstep : (insKey ((x.1, n), x.2) acc).map projOff =
        insOff (projOff ((x.1, n), x.2)) (acc.map projOff) :=
      insKey_map_projOff fun y hy => hacc y hy
    have hnext : ∀ y ∈ insKey ((x.1, n), x.2) acc, y.1.2 < n + 1 := by
      intro y hy
      rcases List.mem_cons.mp ((insKey_perm _ acc).mem_iff.mp hy) with hy | hy
      · subst hy; exact Nat.lt_succ_self n
      · exact Nat.lt_succ_of_lt (hacc y hy)
    rw [ih (n + 1) _ hnext, hstep]
    rfl

/-- `pySort` is the keyed sort with the append indices forgotten. -/
theorem pySort_eq_sortKey (l : List (Nat × List Char)) :
    pySort l = (sortKey (annot l)).map projOff := by
  unfold pySort sortKey annot
  exact (foldl_sort_bridge l 0 [] (by simp)).symm

/-- The fold of `keyMin` computes a member that is minimal in the
lexicographic order. -/
theorem foldl_keyMin_spec (ks : List (Nat × Nat)) :
    ∀ k : Nat × Nat, ks.foldl keyMin k ∈ k :: ks ∧
      ∀ x ∈ k :: ks, ¬ keyLt x (ks.foldl keyMin k) := by
  induction ks with
  | nil =>
    intro k
    refine ⟨List.mem_cons_self k [], ?_⟩
    intro x hx
    rcases List.mem_cons.mp hx with rfl | hx
    · exact keyLt_irrefl x
    · simp at hx
  | cons y ys ih =>
    intro k
    rcases ih (keyMin k y) with ⟨hmem, hmin⟩
    have hkm := hmin _ (List.mem_cons_self _ _)
    simp only [List.foldl_cons]
    by_cases hyk : keyLt y k
    · have e : keyMin k y = y := by simp [keyMin, hyk]
      rw [e] at hmem hmin hkm ⊢
      refine ⟨List.mem_cons_of_mem _ hmem, ?_⟩
      intro x hx
      rcases List.mem_cons.mp hx with h | hx2
      · subst h
        exact fun hc => hkm (keyLt_trans hyk hc)
      · exact hmin x hx2
    · have e : keyMin k y = k := by simp [keyMin, hyk]
      rw [e] at hmem hmin hkm ⊢
      constructor
      · rcases List.mem_cons.mp hmem with h | h
        · rw [h]; exact List.mem_cons_self _ _
        · exact List.mem_cons_of_mem _ (List.mem_cons_of_mem _ h)
      · intro x hx
        rcases List.mem_cons.mp hx with h | hx2
        · subst h; exact hkm
        · rcases List.mem_cons.mp hx2 with h | hx3
          · subst h
            intro hc
            unfold keyLt at hyk hkm hc
            omega
          · exact hmin x (List.mem_cons_of_mem _ hx3)

/-- `findKey` on a cons whose head carries the symbol. -/
theorem findKey_cons_self {e : (Nat × Nat) × List Char}
    {L : List ((Nat × Nat) × List Char)} {c : List Char} (h : e.2 = c) :
    findKey (e :: L) c = some e.1 := by
  unfold findKey
  rw [List.find?_cons_of_pos _ (by simp [h])]
  rfl

/-- `findKey` on a cons whose head does not carry the symbol. -/
theorem findKey_cons_ne {e : (Nat × Nat) × List Char}
    {L : List ((Nat × Nat) × List Char)} {c : List Char} (h : e.2 ≠ c) :
    findKey (e :: L) c = findKey L c := by
  unfold findKey
  rw [List.find?_cons_of_neg _ (by simpa using h)]

/-- A successful `findKey` exposes an entry of the list. -/
theorem findKey_some_elim {L : List ((Nat × Nat) × List Char)}
    {c : List Char} {k : Nat × Nat} (h : findKey L c = some k) :
    ∃ e ∈ L, e.1 = k ∧ e.2 = c := by
  unfold findKey at h
  rcases Option.map_eq_some'.mp h with ⟨e, he, rfl⟩
  exact ⟨e, List.mem_of_find?_eq_some he, rfl, by
    have := List.find?_some he
    simpa using this⟩

/-- An empty `findKey` means no entry carries the symbol. -/
theorem findKey_none_elim {L : List ((Nat × Nat) × List Char)}
    {c : List Char} (h : findKey L c = none) : ∀ e ∈ L, e.2 ≠ c := by
  unfold findKey at h
  rcases Option.map_eq_none'.mp h with h2
  intro e he
  have := List.find?_eq_none.mp h2 e he
  simpa using this

/-- On a strictly sorted list, the first entry carrying a symbol has the
minimal key among all entries carrying it. -/
theorem findKey_min {L : List ((Nat × Nat) × List Char)} {c : List Char}
    (hp : L.Pairwise fun a b => keyLt a.1 b.1) {k : Nat × Nat}
    (h : findKey L c = some k) :
    k ∈ candsOf L c ∧ ∀ x ∈ candsOf L c, ¬ keyLt x k := by
  induction L with
  | nil => simp [findKey, List.find?] at h
  | cons e L2 ih =>
    rcases List.pairwise_cons.mp hp with ⟨he, hp2⟩
    by_cases hc : e.2 = c
    · rw [findKey_cons_self hc] at h
      injection h with h
      subst h
      have hcands : candsOf (e :: L2) c = e.1 :: candsOf L2 c := by
        simp [candsOf, List.filterMap_cons, hc]
      rw [hcands]
      refine ⟨List.mem_cons_self _ _, ?_⟩
      intro x hx
      rcases List.mem_cons.mp hx with rfl | hx
      · exact keyLt_irrefl _
      · rcases List.mem_filterMap.mp hx with ⟨y, hy, hfy⟩
        have hy1 : y.1 = x := by
          by_cases h2 : y.2 = c
          · simpa [h2] using hfy
          · simp [h2] at hfy
        intro hlt
        exact keyLt_irrefl _ (keyLt_trans (he y hy) (hy1 ▸ hlt))
    · rw [findKey_cons_ne hc] at h
      have hcands : candsOf (e :: L2) c = candsOf L2 c := by
        simp [candsOf, List.filterMap_cons, hc]
      rw [hcands]
      exact ih hp2 h

/-- `firstMatch` is the key of the first entry of the keyed sort carrying
the symbol: the sort is a permutation, so the first entry of the strictly
sorted list is the minimum over the raw candidates, which is what the
`keyMin` fold computes. -/
theorem findKey_sortKey_eq_firstMatch (l : List (Nat × List Char)) (c : List Char) :
    findKey (sortKey (annot l)) c = firstMatch l c := by
  have hperm : List.Perm (candsOf (sortKey (annot l)) c) (candsOf (annot l) c) :=
    List.Perm.filterMap _ (sortKey_perm (annot l))
  cases hf : findKey (sortKey (annot l)) c with
  | none =>
    have hnone := findKey_none_elim hf
    have : candsOf (annot l) c = [] := by
      apply List.filterMap_eq_nil_iff.mpr
      intro e he
      have : e.2 ≠ c := hnone e ((sortKey_perm (annot l)).mem_iff.mpr he)
      simp [this]
    simp [firstMatch, this]
  | some k =>
    rcases findKey_min (sortKey_pairwise_keyLt l) hf with ⟨hkmem, hkmin⟩
    have hkmem2 : k ∈ candsOf (annot l) c := hperm.mem_iff.mp hkmem
    cases hcands : candsOf (annot l) c with
    | nil => rw [hcands] at hkmem2; simp at hkmem2
    | cons k0 ks =>
      rcases foldl_keyMin_spec ks k0 with ⟨hmmem, hmmin⟩
      have hm1 : ¬ keyLt k (ks.foldl keyMin k0) :=
        hmmin k (by rw [← hcands]; exact hkmem2)
      have hm2 : ¬ keyLt (ks.foldl keyMin k0) k := by
        apply hkmin
        apply hperm.mem_iff.mpr
        rw [hcands]
        exact hmmem
      have : k = ks.foldl keyMin k0 := keyLt_antisymm hm1 hm2
      simp [firstMatch, hcands, ← this]

/-- Elements surviving the dedup come from the list and were not seen. -/
theorem dedupGo_mem : ∀ (l : List (List Char)) (seen : List (List Char))
    (c : List Char), c ∈ dedupGo seen l → c ∈ l ∧ seen.contains c = false := by
  intro l
  induction l with
  | nil => intro seen c h; simp [dedupGo] at h
  | cons x xs ih =>
    intro seen c h
    unfold dedupGo at h
    by_cases hs : seen.contains x
    · rw [if_pos hs] at h
      rcases ih seen c h with ⟨h1, h2⟩
      exact ⟨List.mem_cons_of_mem _ h1, h2⟩
    · rw [if_neg hs] at h
      rcases List.mem_cons.mp h with rfl | h
      · exact ⟨List.mem_cons_self _ _, by simpa using hs⟩
      · rcases ih (x :: seen) c h with ⟨h1, h2⟩
        refine ⟨List.mem_cons_of_mem _ h1, ?_⟩
        rw [List.contains_cons] at h2
        exact (Bool.or_eq_false_iff.mp h2).2

/-- The dedup output has no duplicates. -/
theorem dedupGo_nodup : ∀ (l : List (List Char)) (seen : List (List Char)),
    (dedupGo seen l).Nodup := by
  intro l
  induction l with
  | nil => intro seen; simp [dedupGo]
  | cons x xs ih =>
    intro seen
    unfold dedupGo
    by_cases hs : seen.contains x
    · rw [if_pos hs]; exact ih seen
    · rw [if_neg hs]
      refine List.nodup_cons.mpr ⟨?_, ih (x :: seen)⟩
      intro hmem
      have := (dedupGo_mem xs (x :: seen) x hmem).2
      simp [List.contains_cons] at this

/-- Walking a strictly sorted `(key, chord)` list, the dedup keeps the
first occurrence of each chord, so the output is ordered by the keys of
the first occurrences. -/
theorem dedup_pairwise_findKey :
    ∀ (L : List ((Nat × Nat) × List Char)) (seen : List (List Char)),
      (L.Pairwise fun a b => keyLt a.1 b.1) →
      ((dedupGo seen (L.map fun e => e.2)).Pairwise fun c1 c2 =>
        ∃ k1 k2, findKey L c1 = some k1 ∧ findKey L c2 = some k2 ∧ keyLt k1 k2) ∧
      (∀ c ∈ dedupGo seen (L.map fun e => e.2),
        seen.contains c = false ∧ (findKey L c).isSome) := by
  intro L
  induction L with
  | nil => intro seen _; simp [dedupGo]
  | cons e L2 ih =>
    intro seen hp
    rcases List.pairwise_cons.mp hp with ⟨he, hp2⟩
    simp only [List.map_cons]
    unfold dedupGo
    by_cases hs : seen.contains e.2
    · rw [if_pos hs]
      rcases ih seen hp2 with ⟨P2, M2⟩
      have hne : ∀ c ∈ dedupGo seen (L2.map fun x => x.2), e.2 ≠ c := by
        intro c hc hceq
        have := (M2 c hc).1
        rw [← hceq] at this
        rw [this] at hs
        exact Bool.false_ne_true hs
      constructor
      · refine P2.imp_of_mem ?_
        intro c1 c2 h1 h2 hrel
        rcases hrel with ⟨k1, k2, hk1, hk2, hlt⟩
        exact ⟨k1, k2, by rw [findKey_cons_ne (hne c1 h1)]; exact hk1,
          by rw [findKey_cons_ne (hne c2 h2)]; exact hk2, hlt⟩
      · intro c hc
        refine ⟨(M2 c hc).1, ?_⟩
        rw [findKey_cons_ne (hne c hc)]
        exact (M2 c hc).2
    · rw [if_neg hs]
      rcases ih (e.2 :: seen) hp2 with ⟨P2, M2⟩
      have hne : ∀ c ∈ dedupGo (e.2 :: seen) (L2.map fun x => x.2), e.2 ≠ c := by
        intro c hc hceq
        have := (M2 c hc).1
        rw [List.contains_cons] at this
        rcases Bool.or_eq_false_iff.mp this with ⟨h1, _⟩
        rw [hceq] at h1
        simp at h1
      refine ⟨List.pairwise_cons.mpr ⟨?_, ?_⟩, ?_⟩
      · intro c2 hc2
        have hk2some := (M2 c2 hc2).2
        rcases Option.isSome_iff_exists.mp hk2some with ⟨k2, hk2⟩
        rcases findKey_some_elim hk2 with ⟨y, hy, hy1, _⟩
        refine ⟨e.1, k2, findKey_cons_self rfl, ?_, ?_⟩
        · rw [findKey_cons_ne (hne c2 hc2)]; exact hk2
        · rw [← hy1]; exact he y hy
      · refine P2.imp_of_mem ?_
        intro c1 c2 h1 h2 hrel
        rcases hrel with ⟨k1, k2, hk1, hk2, hlt⟩
        exact ⟨k1, k2, by rw [findKey_cons_ne (hne c1 h1)]; exact hk1,
          by rw [findKey_cons_ne (hne c2 h2)]; exact hk2, hlt⟩
      · intro c hc
        rcases List.mem_cons.mp hc with rfl | hc
        · exact ⟨by simpa using hs, by rw [findKey_cons_self rfl]; rfl⟩
        · have hcs := (M2 c hc).1
          rw [List.contains_cons] at hcs
          refine ⟨(Bool.or_eq_false_iff.mp hcs).2, ?_⟩
          rw [findKey_cons_ne (hne c hc)]
          exact (M2 c hc).2

/-- C1: the output of `extract_chords` has no duplicate chord-symbol
strings, and its elements are ordered by the keys of their first recorded
matches: ascending start offset in the hyphen-normalized text, and for
equal offsets the order in which the layers A, B, C, D appended the
entries (the lexicographic order `keyLt` on `firstMatch` keys), i.e. the
sort is stable. -/
theorem claim_C1 (t : String) :
    (extract_chords t).Nodup ∧
    (extract_chords t).Pairwise fun c1 c2 => ∃ k1 k2 : Nat × Nat,
      firstMatch (rawPositions t.data) c1.data = some k1 ∧
      firstMatch (rawPositions t.data) c2.data = some k2 ∧ keyLt k1 k2 := by
  have hinj : Function.Injective (fun l : List Char => (⟨l⟩ : String)) :=
    fun a b h => congrArg String.data h
  have hL : extractL t.data =
      dedupGo [] ((sortKey (annot (rawPositions t.data))).map fun e => e.2) := by
    unfold extractL
    rw [pySort_eq_sortKey, List.map_map]
    rfl
  have hmain := dedup_pairwise_findKey (sortKey (annot (rawPositions t.data))) []
    (sortKey_pairwise_keyLt (rawPositions t.data))
  constructor
  · unfold extract_chords
    apply List.Nodup.map hinj
    rw [hL]
    exact dedupGo_nodup _ _
  · unfold extract_chords
    apply List.pairwise_map.mpr
    have hp := hmain.1
    rw [← hL] at hp
    exact hp.imp fun hrel => by
      obtain ⟨k1, k2, h1, h2, hlt⟩ := hrel
      rw [findKey_sortKey_eq_firstMatch] at h1 h2
      exact ⟨k1, k2, h1, h2, hlt⟩

/-- A concrete sample of the extractor on mixed inline/spoken input. -/
theorem extract_sharp_flat_sample :
    extract_chords "F#m and B flat are in the key" = ["F#m", "Bb"] := by
  decide

/-- Forgetting the keys of the annotation recovers the raw list. -/
theorem annotFrom_map_projOff (l : List (Nat × List Char)) :
    ∀ n, (annotFrom n l).map projOff = l := by
  induction l with
  | nil => intro n; simp [annotFrom]
  | cons x xs ih =>
    intro n
    rw [annotFrom_cons]
    simp only [List.map_cons, ih (n + 1)]
    rfl

/-- The stable offset sort permutes its input. -/
theorem pySort_perm (l : List (Nat × List Char)) : List.Perm (pySort l) l := by
  rw [pySort_eq_sortKey]
  have h := (sortKey_perm (annot l)).map projOff
  rwa [show (annot l).map projOff = l from annotFrom_map_projOff l 0] at h

/-- An ASCII digit is not alphabetic. -/
theorem digit_not_alpha {d : Char} (h : d.isDigit = true) : d.isAlpha = false := by
  simp [Char.isDigit, Char.isAlpha, Char.isUpper, Char.isLower,
    UInt32.le_def, BitVec.le_def] at *
  omega

/-- An ASCII digit is neither `j` nor `n`. -/
theorem digit_ne_j_n {d : Char} (h : d.isDigit = true) : d ≠ 'j' ∧ d ≠ 'n' := by
  constructor <;> intro hd <;> subst hd <;> simp at h

/-- The uppercase form of a letter in the `[A-G]` class lies in `A`-`G`. -/
theorem toUpper_note {c : Char} (h : isNote c = true) :
    'A' ≤ c.toUpper ∧ c.toUpper ≤ 'G' := by
  have hmem : c ∈ noteChars := by
    unfold isNote at h
    rw [List.contains_eq_any_beq] at h
    rcases List.any_eq_true.mp h with ⟨x, hx, hbx⟩
    rwa [show c = x from beq_iff_eq.mp hbx]
  fin_cases hmem <;> decide

/-- A successful `endsWithL` determines the last character. -/
theorem endsWithL_getLast {s suf : List Char} (h : endsWithL s suf = true)
    (hne : suf ≠ []) : s.getLast? = suf.getLast? := by
  unfold endsWithL at h
  simp only [Bool.and_eq_true] at h
  rcases h with ⟨_, hdrop⟩
  have hd : s.drop (s.length - suf.length) = suf := beq_iff_eq.mp hdrop
  conv_lhs => rw [← List.take_append_drop (s.length - suf.length) s]
  rw [hd, List.getLast?_append]
  cases hsl : suf.getLast? with
  | none => exact absurd (List.getLast?_eq_none_iff.mp hsl) hne
  | some d => rfl

/-- `endsWithL` is false when the suffix is longer than the list. -/
theorem endsWithL_of_short {s suf : List Char} (h : s.length < suf.length) :
    endsWithL s suf = false := by
  unfold endsWithL
  have : ¬ suf.length ≤ s.length := by omega
  simp [this]

/-- `endsWithL` is false when the last characters disagree. -/
theorem endsWithL_false_of_last {s suf : List Char} (hne : suf ≠ [])
    (h : s.getLast? ≠ suf.getLast?) : endsWithL s suf = false := by
  cases hE : endsWithL s suf
  · rfl
  · exact absurd (endsWithL_getLast hE hne) h

/-- A list ending in a digit ends in neither `maj` nor `min`. -/
theorem noMajMin_of_digits {pre ds : List Char} (hne : ds ≠ [])
    (hd : ∀ d ∈ ds, d.isDigit = true) : noMajMin (pre ++ ds) := by
  have hlast : (pre ++ ds).getLast? = some (ds.getLast hne) := by
    rw [List.getLast?_append, List.getLast?_eq_getLast ds hne]
    rfl
  have hmem := List.getLast_mem hne
  have hdig := hd _ hmem
  rcases digit_ne_j_n hdig with ⟨hj, hn⟩
  constructor
  · apply endsWithL_false_of_last (by decide)
    rw [hlast]
    intro hc
    exact hj (by simpa using hc)
  · apply endsWithL_false_of_last (by decide)
    rw [hlast]
    intro hc
    exact hn (by simpa using hc)

/-- Every character split off by `digitSpan` is a digit. -/
theorem digitSpan_all (s : List Char) : ∀ d ∈ (digitSpan s).1, d.isDigit = true := by
  induction s with
  | nil => simp [digitSpan]
  | cons c cs ih =>
    unfold digitSpan
    by_cases h : c.isDigit
    · simp only [h, if_true]
      intro d hd
      rcases List.mem_cons.mp hd with rfl | hd
      · exact h
      · exact ih d hd
    · simp [h]

/-- `digits1` yields a nonempty digit run. -/
theorem digits1_spec {s ds rest : List Char} (h : digits1 s = some (ds, rest)) :
    ds ≠ [] ∧ ∀ d ∈ ds, d.isDigit = true := by
  have hall := digitSpan_all s
  unfold digits1 at h
  rcases hsp : digitSpan s with ⟨ds2, rest2⟩
  rw [hsp] at h hall
  cases ds2 with
  | nil => simp at h
  | cons d0 dtl =>
    simp only [Option.some.injEq, Prod.mk.injEq] at h
    obtain ⟨rfl, rfl⟩ := h
    exact ⟨by simp, hall⟩

/-- The number group returned by `numTail` is well-formed. -/
theorem numTail_spec {s : List Char} {num : Option (List Char)} {rest : List Char}
    (h : numTail s = some (num, rest)) : numOk num := by
  unfold numTail at h
  split at h
  · rename_i ds0 rest0 hd
    split at h
    · simp only [Option.some.injEq, Prod.mk.injEq] at h
      obtain ⟨rfl, rfl⟩ := h
      intro ds hds
      injection hds with hds
      subst hds
      exact digits1_spec hd
    · split at h
      · simp only [Option.some.injEq, Prod.mk.injEq] at h
        obtain ⟨rfl, rfl⟩ := h
        intro ds hds
        cases hds
      · cases h
  · split at h
    · simp only [Option.some.injEq, Prod.mk.injEq] at h
      obtain ⟨rfl, rfl⟩ := h
      intro ds hds
      cases hds
    · cases h

/-- The alternation returns one of its alternatives, with a well-formed
number group. -/
theorem tryQuals_spec {qs : List (List Char)} {s q : List Char}
    {num : Option (List Char)} {rest : List Char}
    (h : tryQuals qs s = some (q, num, rest)) : q ∈ qs ∧ numOk num := by
  induction qs with
  | nil => simp [tryQuals] at h
  | cons q0 qtl ih =>
    unfold tryQuals at h
    split at h
    · split at h
      · rename_i rest0 hlit num2 rest2 hnum
        simp only [Option.some.injEq, Prod.mk.injEq] at h
        obtain ⟨rfl, rfl, rfl⟩ := h
        exact ⟨List.mem_cons_self _ _, numTail_spec hnum⟩
      · rcases ih h with ⟨h1, h2⟩
        exact ⟨List.mem_cons_of_mem _ h1, h2⟩
    · rcases ih h with ⟨h1, h2⟩
      exact ⟨List.mem_cons_of_mem _ h1, h2⟩

/-- Facts about a successful layer-A match. -/
theorem matchA_spec {s : List Char} {m : MA} (h : matchA s = some m) :
    isNote m.note = true ∧ m.qual ∈ qualWords ∧ numOk m.num := by
  unfold matchA at h
  split at h
  · cases h
  · rename_i c s1
    split at h
    · split at h
      · split at h
        · split at h
          · split at h
            · rename_i hn x3 r2 hws x2 fl s3 hmod x1 s4 hws2 x0 q num rest hq
              injection h with h
              subst h
              rcases tryQuals_spec hq with ⟨h1, h2⟩
              exact ⟨hn, h1, h2⟩
            · cases h
          · cases h
        · cases h
      · cases h
    · cases h

/-- Facts about a successful layer-B match. -/
theorem matchB_spec {s : List Char} {m : MB} (h : matchB s = some m) :
    isNote m.note = true := by
  unfold matchB at h
  repeat' split at h
  all_goals try cases h
  all_goals simp_all

/-- Facts about the quality tail of the phrase layers. -/
theorem matchCcore_spec {s q : List Char} {num : Option (List Char)}
    {rest : List Char} (h : matchCcore s = some (q, num, rest)) :
    q ∈ qualWords ∧ numOk num := by
  unfold matchCcore at h
  split at h
  · exact tryQuals_spec h
  · cases h

/-- Facts about a successful layer-C match. -/
theorem matchC_spec {s : List Char} {m : MC} (h : matchC s = some m) :
    notegOk m.noteg ∧ m.qual ∈ qualWords ∧ numOk m.num := by
  unfold matchC at h
  split at h
  · cases h
  · split at h
    · split at h
      · split at h
        · split at h
          · rename_i x1 c hn s1 a s2 ha x0 q num rest hcore
            injection h with h
            subst h
            rcases matchCcore_spec hcore with ⟨h1, h2⟩
            exact ⟨Or.inr ⟨c, a, rfl, hn, ha⟩, h1, h2⟩
          · split at h
            · rename_i x2 c hn s1 a s2 ha x1 hfail x0 q num rest hcore
              injection h with h
              subst h
              rcases matchCcore_spec hcore with ⟨h1, h2⟩
              exact ⟨Or.inl ⟨c, rfl, hn⟩, h1, h2⟩
            · cases h
        · split at h
          · rename_i x1 c hn s1 a s2 ha x0 q num rest hcore
            injection h with h
            subst h
            rcases matchCcore_spec hcore with ⟨h1, h2⟩
            exact ⟨Or.inl ⟨c, rfl, hn⟩, h1, h2⟩
          · cases h
      · cases h
    · cases h

/-- The layer-D alternation returns one of its alternatives. -/
theorem tryQualsD_spec {qs : List (List Char)} {s q rest : List Char}
    (h : tryQualsD qs s = some (q, rest)) : q ∈ qs := by
  induction qs with
  | nil => simp [tryQualsD] at h
  | cons q0 qtl ih =>
    unfold tryQualsD at h
    split at h
    · split at h
      · simp only [Option.some.injEq, Prod.mk.injEq] at h
        obtain ⟨rfl, rfl⟩ := h
        exact List.mem_cons_self _ _
      · exact List.mem_cons_of_mem _ (ih h)
    · exact List.mem_cons_of_mem _ (ih h)

/-- Facts about the layer-D tail. -/
theorem matchDnote_spec {note : List Char} {lastW : Bool} {s : List Char}
    {m : MD} (h : matchDnote note lastW s = some m) :
    m.noteg = note ∧ (m.qual = none ∨ ∃ q ∈ dQuals, m.qual = some q) := by
  unfold matchDnote at h
  split at h
  · rename_i x0 q rest hq
    injection h with h
    subst h
    exact ⟨rfl, Or.inr ⟨q, tryQualsD_spec hq, rfl⟩⟩
  · split at h
    · injection h with h
      subst h
      exact ⟨rfl, Or.inl rfl⟩
    · cases h

/-- Facts about a successful layer-D match. -/
theorem matchD_spec {s : List Char} {m : MD} (h : matchD s = some m) :
    notegOk m.noteg ∧ (m.qual = none ∨ ∃ q ∈ dQuals, m.qual = some q) := by
  unfold matchD at h
  split at h
  · cases h
  · split at h
    · split at h
      · split at h
        · split at h
          · rename_i x1 c hn s1 a s2 ha x0 r hr
            injection h with h
            subst h
            rcases matchDnote_spec hr with ⟨h1, h2⟩
            rw [h1]
            exact ⟨Or.inr ⟨c, a, rfl, hn, ha⟩, h2⟩
          · rename_i x1 c hn s1 a s2 ha x0 hfail
            rcases matchDnote_spec h with ⟨h1, h2⟩
            rw [h1]
            exact ⟨Or.inl ⟨c, rfl, hn⟩, h2⟩
        · rename_i x0 c hn s1 a s2 ha
          rcases matchDnote_spec h with ⟨h1, h2⟩
          rw [h1]
          exact ⟨Or.inl ⟨c, rfl, hn⟩, h2⟩
      · rename_i x0 c hn s1
        rcases matchDnote_spec h with ⟨h1, h2⟩
        rw [h1]
        exact ⟨Or.inl ⟨c, rfl, hn⟩, h2⟩
    · cases h

/-- Every match reported by the scanner comes from a successful run of
the matcher on some suffix. -/
theorem scanGo_spec {M : Type} (f : List Char → Option M) (restOf : M → List Char)
    (P : M → Prop) (hf : ∀ s m, f s = some m → P m) :
    ∀ (fuel : Nat) (s : List Char) (pos : Nat) (w : Bool),
      ∀ pm ∈ scanGo f restOf fuel s pos w, P pm.2 := by
  intro fuel
  induction fuel with
  | zero => intro s pos w pm hpm; simp [scanGo] at hpm
  | succ n ih =>
    intro s pos w pm hpm
    cases s with
    | nil => simp [scanGo] at hpm
    | cons c cs =>
      unfold scanGo at hpm
      split at hpm
      · rename_i m2 hm2
        rcases List.mem_cons.mp hpm with rfl | hpm
        · by_cases hw : w
          · rw [if_pos hw] at hm2; cases hm2
          · rw [if_neg hw] at hm2
            exact hf _ _ hm2
        · exact ih _ _ _ _ hpm
      · exact ih _ _ _ _ hpm

/-- `goodTail` of a concatenation. -/
theorem goodTail_append {a b : List Char} (ha : goodTail a) (hb : goodTail b) :
    goodTail (a ++ b) := by
  intro x hx
  rcases List.mem_append.mp hx with h | h
  · exact ha x h
  · exact hb x h

/-- A digit run is a `goodTail`. -/
theorem goodTail_digits {ds : List Char} (h : ∀ d ∈ ds, d.isDigit = true) :
    goodTail ds := by
  intro x hx halpha
  rw [digit_not_alpha (h x hx)] at halpha
  cases halpha

/-- A chord shorter than three characters ends in neither `maj` nor `min`. -/
theorem noMajMin_of_short {chord : List Char} (h : chord.length < 3) :
    noMajMin chord :=
  ⟨endsWithL_of_short (by simpa using h), endsWithL_of_short (by simpa using h)⟩

/-- A chord whose last character is neither `j` nor `n` ends in neither
`maj` nor `min`. -/
theorem noMajMin_of_last {chord : List Char} {x : Char}
    (h : chord.getLast? = some x) (hj : x ≠ 'j') (hn : x ≠ 'n') :
    noMajMin chord := by
  constructor
  · apply endsWithL_false_of_last (by decide)
    rw [h]
    intro hc
    exact hj (by simpa using hc)
  · apply endsWithL_false_of_last (by decide)
    rw [h]
    intro hc
    exact hn (by simpa using hc)

/-- The chord built by the phrase layers satisfies the output invariant:
the base is an uppercase note with an optional lowercase accidental, the
appended quality suffix is `m` or `maj`+digits, and a digit run may
follow. -/
theorem phraseChord_ok {u : Char} (hu : 'A' ≤ u ∧ u ≤ 'G') {mid : List Char}
    (hmid : mid = [] ∨ mid = ['b'] ∨ mid = ['#']) {q : List Char}
    {num : Option (List Char)} (hnum : numOk num) :
    okChord (phraseChord (u :: mid) q num) := by
  have hmidtail : goodTail mid := by
    rcases hmid with rfl | rfl | rfl <;> decide
  unfold phraseChord
  cases num with
  | none =>
    by_cases hq : isMinorWord q
    · simp only [hq, if_true]
      refine ⟨⟨hu, goodTail_append hmidtail (by decide)⟩, ?_⟩
      rcases hmid with rfl | rfl | rfl
      · exact noMajMin_of_short (by simp)
      · exact noMajMin_of_last (x := 'm') rfl (by decide) (by decide)
      · exact noMajMin_of_last (x := 'm') rfl (by decide) (by decide)
    · simp only [hq, if_false, Option.isSome_none, Bool.false_eq_true, List.append_nil]
      refine ⟨⟨hu, hmidtail⟩, ?_⟩
      rcases hmid with rfl | rfl | rfl <;> exact noMajMin_of_short (by simp)
  | some ds =>
    rcases hnum ds rfl with ⟨hne, hdig⟩
    by_cases hq : isMinorWord q
    · simp only [hq, if_true]
      exact ⟨⟨hu, goodTail_append (goodTail_append hmidtail (by decide))
          (goodTail_digits hdig)⟩, noMajMin_of_digits hne hdig⟩
    · simp only [hq, if_false, Option.isSome_some, if_true]
      exact ⟨⟨hu, goodTail_append (goodTail_append hmidtail (by decide))
          (goodTail_digits hdig)⟩, noMajMin_of_digits hne hdig⟩

/-- The canonicalized layer-D chord satisfies the output invariant, for
every inline quality of the pattern (or none) and every accidental. -/
theorem dChord_ok (u : Char) (hu : 'A' ≤ u ∧ u ≤ 'G') (mid : List Char)
    (hmid : mid = [] ∨ mid = ['b'] ∨ mid = ['#']) (qt : List Char)
    (hqt : qt = [] ∨ qt ∈ dQuals) :
    okChord (stripMajMin (u :: (mid ++ qt))) := by
  rcases hmid with rfl | rfl | rfl <;> rcases hqt with rfl | hq
  all_goals try fin_cases hq
  all_goals simp [stripMajMin, endsWithL]
  all_goals exact ⟨⟨hu, by decide⟩, by constructor <;> simp [endsWithL]⟩

/-- The lowercase form of an accidental character is `b` or `#`. -/
theorem acc_toLower {a : Char} (ha : isAccChar a = true) :
    a.toLower = 'b' ∨ a.toLower = '#' := by
  unfold isAccChar at ha
  simp only [Bool.or_eq_true, beq_iff_eq] at ha
  rcases ha with (rfl | rfl) | rfl
  · right; decide
  · left; decide
  · left; decide

/-- Inline quality literals are unchanged by lowercasing. -/
theorem lowerStr_dQuals {q : List Char} (hq : q ∈ dQuals) : lowerStr q = q := by
  fin_cases hq <;> decide

/-- Layer A appends only invariant-respecting chords. -/
theorem foldA_ok (ms : List (Nat × MA)) :
    ∀ st : ExtState,
      (∀ pm ∈ ms, isNote pm.2.note = true ∧ pm.2.qual ∈ qualWords ∧ numOk pm.2.num) →
      (∀ pr ∈ st.positions, okChord pr.2) →
      ∀ pr ∈ (ms.foldl stepA st).positions, okChord pr.2 := by
  induction ms with
  | nil => intro st _ hst; simpa using hst
  | cons pm tl ih =>
    intro st hms hst
    rw [List.foldl_cons]
    apply ih
    · intro x hx; exact hms x (List.mem_cons_of_mem _ hx)
    · intro pr hpr
      rcases hms pm (List.mem_cons_self _ _) with ⟨hn, hq, hnum⟩
      unfold stepA at hpr
      rcases List.mem_append.mp hpr with hpr | hpr
      · exact hst pr hpr
      · rcases List.mem_singleton.mp hpr with rfl
        apply phraseChord_ok (toUpper_note hn) _ hnum
        by_cases hf : pm.2.flat <;> simp [hf]

/-- Layer B appends only invariant-respecting chords. -/
theorem foldB_ok (ms : List (Nat × MB)) :
    ∀ st : ExtState,
      (∀ pm ∈ ms, isNote pm.2.note = true) →
      (∀ pr ∈ st.positions, okChord pr.2) →
      ∀ pr ∈ (ms.foldl stepB st).positions, okChord pr.2 := by
  induction ms with
  | nil => intro st _ hst; simpa using hst
  | cons pm tl ih =>
    intro st hms hst
    rw [List.foldl_cons]
    apply ih
    · intro x hx; exact hms x (List.mem_cons_of_mem _ hx)
    · intro pr hpr
      have hn := hms pm (List.mem_cons_self _ _)
      unfold stepB at hpr
      by_cases hskip : st.positions.any fun pr2 => pr2.1 == pm.1
      · rw [if_pos hskip] at hpr
        exact hst pr hpr
      · rw [if_neg hskip] at hpr
        rcases List.mem_append.mp hpr with hpr | hpr
        · exact hst pr hpr
        · rcases List.mem_singleton.mp hpr with rfl
          refine ⟨⟨toUpper_note hn, ?_⟩, noMajMin_of_short (by simp)⟩
          by_cases hf : pm.2.flat <;> simp [hf] <;> decide

/-- Layer C appends only invariant-respecting chords. -/
theorem foldC_ok (ms : List (Nat × MC)) :
    ∀ st : ExtState,
      (∀ pm ∈ ms, notegOk pm.2.noteg ∧ pm.2.qual ∈ qualWords ∧ numOk pm.2.num) →
      (∀ pr ∈ st.positions, okChord pr.2) →
      ∀ pr ∈ (ms.foldl stepC st).positions, okChord pr.2 := by
  induction ms with
  | nil => intro st _ hst; simpa using hst
  | cons pm tl ih =>
    intro st hms hst
    rw [List.foldl_cons]
    apply ih
    · intro x hx; exact hms x (List.mem_cons_of_mem _ hx)
    · intro pr hpr
      rcases hms pm (List.mem_cons_self _ _) with ⟨hng, hq, hnum⟩
      unfold stepC at hpr
      by_cases hskip : st.fsNotes.contains (lowerStr (pyCapitalize pm.2.noteg))
      · rw [if_pos hskip] at hpr
        exact hst pr hpr
      · rw [if_neg hskip] at hpr
        rcases List.mem_append.mp hpr with hpr | hpr
        · exact hst pr hpr
        · rcases List.mem_singleton.mp hpr with rfl
          rcases hng with ⟨c, hng, hn⟩ | ⟨c, a, hng, hn, ha⟩
          · rw [hng]
            exact phraseChord_ok (toUpper_note hn) (Or.inl rfl) hnum
          · rw [hng]
            show okChord (phraseChord (c.toUpper :: [a.toLower]) _ _)
            apply phraseChord_ok (toUpper_note hn) _ hnum
            rcases acc_toLower ha with h | h <;> rw [h] <;> simp

/-- Layer D appends only invariant-respecting chords. -/
theorem foldD_ok (ms : List (Nat × MD)) :
    ∀ st : ExtState,
      (∀ pm ∈ ms, notegOk pm.2.noteg ∧
        (pm.2.qual = none ∨ ∃ q ∈ dQuals, pm.2.qual = some q)) →
      (∀ pr ∈ st.positions, okChord pr.2) →
      ∀ pr ∈ (ms.foldl stepD st).positions, okChord pr.2 := by
  induction ms with
  | nil => intro st _ hst; simpa using hst
  | cons pm tl ih =>
    intro st hms hst
    rw [List.foldl_cons]
    apply ih
    · intro x hx; exact hms x (List.mem_cons_of_mem _ hx)
    · intro pr hpr
      rcases hms pm (List.mem_cons_self _ _) with ⟨hng, hq⟩
      unfold stepD at hpr
      split at hpr
      · exact hst pr hpr
      · rcases List.mem_append.mp hpr with hpr | hpr
        · exact hst pr hpr
        · rcases List.mem_singleton.mp hpr with rfl
          have hqt : pm.2.qual.getD [] = [] ∨ pm.2.qual.getD [] ∈ dQuals := by
            rcases hq with hq | ⟨q, hqmem, hq⟩
            · rw [hq]; exact Or.inl rfl
            · rw [hq]; exact Or.inr hqmem
          have hlq : lowerStr (pm.2.qual.getD []) = pm.2.qual.getD [] := by
            rcases hqt with h | h
            · rw [h]; rfl
            · exact lowerStr_dQuals h
          rcases hng with ⟨c, hng, hn⟩ | ⟨c, a, hng, hn, ha⟩
          · rw [hng]
            show okChord (stripMajMin (c.toUpper :: lowerStr (pm.2.qual.getD [])))
            rw [hlq]
            exact dChord_ok _ (toUpper_note hn) [] (Or.inl rfl) _ hqt
          · rw [hng]
            show okChord (stripMajMin (c.toUpper :: lowerStr (a :: pm.2.qual.getD [])))
            have hsplit : lowerStr (a :: pm.2.qual.getD []) =
                a.toLower :: pm.2.qual.getD [] := by
              unfold lowerStr at hlq ⊢
              rw [List.map_cons, hlq]
            rw [hsplit]
            apply dChord_ok _ (toUpper_note hn) [a.toLower] _ _ hqt
            rcases acc_toLower ha with h | h <;> rw [h] <;> simp

/-- Every chord recorded by any layer satisfies the output invariant. -/
theorem rawPositions_ok (t : List Char) : ∀ pr ∈ rawPositions t, okChord pr.2 := by
  intro pr hpr
  unfold rawPositions runLayers at hpr
  refine foldD_ok _ _ ?_ ?_ pr hpr
  · intro pm hpm
    exact scanGo_spec matchD MD.rest _ (fun s m h => matchD_spec h) _ _ _ _ pm hpm
  · refine foldC_ok _ _ ?_ ?_
    · intro pm hpm
      exact scanGo_spec matchC MC.rest _ (fun s m h => matchC_spec h) _ _ _ _ pm hpm
    · refine foldB_ok _ _ ?_ ?_
      · intro pm hpm
        exact scanGo_spec matchB MB.rest _ (fun s m h => matchB_spec h) _ _ _ _ pm hpm
      · refine foldA_ok _ _ ?_ ?_
        · intro pm hpm
          exact scanGo_spec matchA MA.rest _ (fun s m h => matchA_spec h) _ _ _ _ pm hpm
        · intro pr2 hpr2
          simp at hpr2

/-- Every chord in the extractor's output satisfies the invariant. -/
theorem extract_mem_ok (t : String) : ∀ c ∈ extract_chords t, okChord c.data := by
  intro c hc
  unfold extract_chords at hc
  rcases List.mem_map.mp hc with ⟨l, hl, rfl⟩
  unfold extractL at hl
  have hl2 := (dedupGo_mem _ _ _ hl).1
  rcases List.mem_map.mp hl2 with ⟨pr, hpr, rfl⟩
  have hraw : pr ∈ rawPositions t.data := (pySort_perm _).mem_iff.mp hpr
  exact rawPositions_ok t.data pr hraw

/-- C4: no chord symbol in the output of `extract_chords` ends in the
bare literal substring `maj` or `min`: a trailing `maj` survives only
with a following number (so the symbol then ends in a digit), and `min`
is always collapsed to `m`. -/
theorem claim_C4 (t : String) : ∀ c ∈ extract_chords t,
    endsWithL c.data "maj".toList = false ∧
    endsWithL c.data "min".toList = false := by
  intro c hc
  exact (extract_mem_ok t c hc).2

/-- C4 witness: the suffix invariant at concrete outputs. -/
theorem claim_C4_witness :
    endsWithL ("Bbm" : String).data "maj".toList = false ∧
    endsWithL ("Bbm" : String).data "min".toList = false :=
  claim_C4 "B-flat minor, C-major 7." "Bbm" (by decide)

/-- C9: every chord symbol in the output of `extract_chords` begins with
an uppercase letter in `A`-`G`, and every alphabetic character after the
first is lowercase, for every input string. -/
theorem claim_C9 (t : String) : ∀ c ∈ extract_chords t, goodSym c.data := by
  intro c hc
  exact (extract_mem_ok t c hc).1

/-- C9 witness: the casing invariant at a concrete output. -/
theorem claim_C9_witness : goodSym ("F#m" : String).data :=
  claim_C9 "f#M and b FLAT are in the key" "F#m" (by decide)

/-- Decomposition of a vocabulary symbol into its three segments. -/
theorem vocab_elim {s : List Char} (h : s ∈ vocab) :
    ∃ u mid qt, u ∈ upperNotes ∧ mid ∈ accOpts ∧ qt ∈ sufOpts ∧
      ¬(mid = ['#'] ∧ qt = []) ∧ s = u :: mid ++ qt := by
  unfold vocab at h
  rw [List.mem_flatMap] at h
  obtain ⟨u, hu, h⟩ := h
  rw [List.mem_flatMap] at h
  obtain ⟨mid, hmid, h⟩ := h
  rw [List.mem_filterMap] at h
  obtain ⟨qt, hqt, h⟩ := h
  by_cases hex : mid = ['#'] ∧ qt = []
  · rw [if_pos hex] at h
    cases h
  · rw [if_neg hex] at h
    injection h with h
    exact ⟨u, mid, qt, hu, hmid, hqt, hex, h.symm⟩

/-- Vocabulary symbols are nonempty. -/
theorem vocab_ne_nil {s : List Char} (h : s ∈ vocab) : s ≠ [] := by
  obtain ⟨u, mid, qt, _, _, _, _, rfl⟩ := vocab_elim h
  simp

/-- A vocabulary symbol starts with an uppercase note letter, and its
second character, when present, is one of `secondChars`. -/
theorem vocab_shape {s : List Char} (h : s ∈ vocab) :
    ∃ u rest, s = u :: rest ∧ u ∈ upperNotes ∧
      (rest = [] ∨ ∃ y t, rest = y :: t ∧ y ∈ secondChars) := by
  obtain ⟨u, mid, qt, hu, hmid, hqt, hex, rfl⟩ := vocab_elim h
  refine ⟨u, mid ++ qt, rfl, hu, ?_⟩
  fin_cases hmid <;> fin_cases hqt <;>
    first
      | exact Or.inl rfl
      | exact Or.inr ⟨_, _, rfl, by decide⟩

/-- Characters of a vocabulary symbol: not whitespace and not a dash. -/
theorem vocab_char_id {s : List Char} (h : s ∈ vocab) :
    ∀ c ∈ s, c.isWhitespace = false ∧ normChar c = c := by
  obtain ⟨u, mid, qt, hu, hmid, hqt, hex, rfl⟩ := vocab_elim h
  intro c hc
  rcases List.mem_cons.mp hc with rfl | hc
  · fin_cases hu <;> exact ⟨by decide, by decide⟩
  · rcases List.mem_append.mp hc with hc | hc
    · fin_cases hmid <;> fin_cases hc <;> exact ⟨by decide, by decide⟩
    · fin_cases hqt <;> fin_cases hc <;> exact ⟨by decide, by decide⟩

/-- A case-insensitive literal fails on a first-character mismatch. -/
theorem litMatch_none_head {l : Char} {ls : List Char} {c : Char} {cs : List Char}
    (h : foldEq l c = false) : litMatch (l :: ls) (c :: cs) = none := by
  unfold litMatch
  rw [h]
  rfl

/-- A case-insensitive literal fails on a second-character mismatch. -/
theorem litMatch_none_second {l1 l2 : Char} {ls : List Char} {c1 c2 : Char}
    {cs : List Char} (h : foldEq l2 c2 = false) :
    litMatch (l1 :: l2 :: ls) (c1 :: c2 :: cs) = none := by
  unfold litMatch
  by_cases h1 : foldEq l1 c1
  · rw [h1]
    show litMatch (l2 :: ls) (c2 :: cs) = none
    exact litMatch_none_head h
  · rw [Bool.not_eq_true] at h1
    rw [h1]
    rfl

/-- A literal of length at least two fails on a one-character input. -/
theorem litMatch_two_nil {l1 l2 : Char} {ls : List Char} {c : Char} :
    litMatch (l1 :: l2 :: ls) [c] = none := by
  unfold litMatch
  by_cases h1 : foldEq l1 c
  · rw [h1]
    rfl
  · rw [Bool.not_eq_true] at h1
    rw [h1]
    rfl

/-- None of the modifier or quality literals can match a text that begins
with a re-parseable canonical symbol: the literal is rejected within its
first two characters. -/
theorem qualLit_rej {w : List Char} (hw : w ∈ allRejLits) {r : List Char}
    (hr : NextSym r) : litMatch w r = none := by
  obtain ⟨s2, r2, rfl, hs2, hr2⟩ := hr
  obtain ⟨u, rest, rfl, hu, hrest⟩ := vocab_shape hs2
  rw [List.cons_append]
  fin_cases hw <;> fin_cases hu <;>
    first
      | exact litMatch_none_head (by decide)
      | (rcases hrest with rfl | ⟨y, t, rfl, hy⟩
         · rcases hr2 with rfl | ⟨r3, rfl⟩
           · exact litMatch_two_nil
           · exact litMatch_none_second (by decide)
         · rw [List.cons_append]
           exact litMatch_none_second (by fin_cases hy <;> decide))

/-- The modifier alternation rejects a text that begins with a canonical
symbol. -/
theorem tryMod_rej {r : List Char} (hr : NextSym r) : tryMod r = none := by
  have hf := qualLit_rej (w := "flat".toList) (by decide) hr
  have hs := qualLit_rej (w := "sharp".toList) (by decide) hr
  unfold tryMod
  rw [hf, hs]

/-- The quality alternation rejects a text that begins with a canonical
symbol. -/
theorem tryQuals_rej {r : List Char} (hr : NextSym r) : tryQuals qualWords r = none := by
  have h1 := qualLit_rej (w := "major".toList) (by decide) hr
  have h2 := qualLit_rej (w := "minor".toList) (by decide) hr
  have h3 := qualLit_rej (w := "maj".toList) (by decide) hr
  have h4 := qualLit_rej (w := "min".toList) (by decide) hr
  have h5 := qualLit_rej (w := "diminished".toList) (by decide) hr
  have h6 := qualLit_rej (w := "augmented".toList) (by decide) hr
  show tryQuals ("major".toList :: "minor".toList :: "maj".toList :: "min".toList ::
    "diminished".toList :: "augmented".toList :: []) r = none
  simp only [tryQuals, h1, h2, h3, h4, h5, h6]

/-- Head facts of a text that begins with a canonical symbol. -/
theorem nextSym_head {r : List Char} (hr : NextSym r) :
    ∃ u t, r = u :: t ∧ u.isWhitespace = false := by
  obtain ⟨s2, r2, rfl, hs2, hr2⟩ := hr
  obtain ⟨u, rest, rfl, hu, hrest⟩ := vocab_shape hs2
  rw [List.cons_append]
  exact ⟨u, rest ++ r2, rfl, by fin_cases hu <;> decide⟩

/-- `\s*` consumes nothing before a non-whitespace character. -/
theorem dropWs_nows {r : List Char} (h : ∀ u t, r = u :: t → u.isWhitespace = false) :
    dropWs r = r := by
  cases r with
  | nil => rfl
  | cons c cs =>
    unfold dropWs
    rw [h c cs rfl]
    rfl

/-- `\s+` fails before a non-whitespace character or at the end. -/
theorem ws1_nows {r : List Char} (h : ∀ u t, r = u :: t → u.isWhitespace = false) :
    ws1 r = none := by
  cases r with
  | nil => rfl
  | cons c cs => simp [ws1, h c cs rfl]

/-- `\s+` at a space consumes it, and nothing more when a non-whitespace
character follows. -/
theorem ws1_space {r : List Char} (h : ∀ u t, r = u :: t → u.isWhitespace = false) :
    ws1 (' ' :: r) = some r := by
  show (if (' ' : Char).isWhitespace then some (dropWs r) else none) = some r
  rw [show (' ' : Char).isWhitespace = true from rfl, if_pos rfl, dropWs_nows h]

/-- A text of non-whitespace characters is rejected by all three phrase
matchers: each requires a whitespace run shortly after its start. -/
theorem matchABC_none_of_nows {r : List Char} (h : ∀ c ∈ r, c.isWhitespace = false) :
    matchA r = none ∧ matchB r = none ∧ matchC r = none := by
  cases r with
  | nil => exact ⟨rfl, rfl, rfl⟩
  | cons c s1 =>
    have hws : ws1 s1 = none :=
      ws1_nows fun u t he => h u (by rw [he]; exact List.mem_cons_of_mem _ (List.mem_cons_self _ _))
    by_cases hn : isNote c
    · refine ⟨?_, ?_, ?_⟩
      · simp [matchA, hn, hws]
      · simp [matchB, hn, hws]
      · cases s1 with
        | nil => simp [matchC, hn]
        | cons a s2 =>
          have hcore1 : matchCcore (a :: s2) = none := by
            simp [matchCcore, hws]
          by_cases ha : isAccChar a
          · have hws2 : ws1 s2 = none := by
              apply ws1_nows
              intro u t he
              refine h u ?_
              rw [he]
              exact List.mem_cons_of_mem _ (List.mem_cons_of_mem _ (List.mem_cons_self _ _))
            have hcore2 : matchCcore s2 = none := by
              simp [matchCcore, hws2]
            simp [matchC, hn, ha, hcore1, hcore2]
          · simp [matchC, hn, ha, hcore1]
    · refine ⟨?_, ?_, ?_⟩
      · simp [matchA, hn]
      · simp [matchB, hn]
      · simp [matchC, hn]

/-- All three phrase matchers fail at any position inside (or at the end
of) a run of non-whitespace characters that is followed by a space and a
canonical symbol. -/
theorem matchABC_none_chunk {p : List Char} (hp : ∀ c ∈ p, c.isWhitespace = false)
    {r : List Char} (hr : NextSym r) :
    matchA (p ++ ' ' :: r) = none ∧ matchB (p ++ ' ' :: r) = none ∧
      matchC (p ++ ' ' :: r) = none := by
  have hhead : ∀ u t, r = u :: t → u.isWhitespace = false := by
    obtain ⟨u0, t0, he0, h0⟩ := nextSym_head hr
    intro u t he
    rw [he0] at he
    injection he with h1 h2
    subst h1
    exact h0
  have hws : ws1 (' ' :: r) = some r := ws1_space hhead
  have hmod : tryMod r = none := tryMod_rej hr
  have hquals : tryQuals qualWords r = none := tryQuals_rej hr
  have hfl : litMatch ['f', 'l', 'a', 't'] r = none := qualLit_rej (by decide) hr
  have hsh : litMatch ['s', 'h', 'a', 'r', 'p'] r = none := qualLit_rej (by decide) hr
  have hsp : isNote ' ' = false := rfl
  have hspa : isAccChar ' ' = false := rfl
  cases p with
  | nil => exact ⟨by simp [matchA, hsp], by simp [matchB, hsp], by simp [matchC, hsp]⟩
  | cons x p1 =>
    cases p1 with
    | nil =>
      by_cases hx : isNote x
      · refine ⟨?_, ?_, ?_⟩
        · simp [matchA, hx, hws, hmod]
        · simp [matchB, hx, hws, hfl, hsh]
        · simp [matchC, matchCcore, hx, hspa, hws, hquals]
      · exact ⟨by simp [matchA, hx], by simp [matchB, hx], by simp [matchC, hx]⟩
    | cons y p' =>
      have hy : y.isWhitespace = false := hp y (by simp)
      have hws1 : ws1 (y :: (p' ++ ' ' :: r)) = none := by
        apply ws1_nows
        intro u t he
        injection he with h1 h2
        subst h1
        exact hy
      by_cases hx : isNote x
      · have hcore1 : matchCcore (y :: (p' ++ ' ' :: r)) = none := by
          simp [matchCcore, hws1]
        have hcore2 : matchCcore (p' ++ ' ' :: r) = none := by
          cases p' with
          | nil => simp [matchCcore, hws, hquals]
          | cons z p'' =>
            have hz : z.isWhitespace = false := hp z (by simp)
            have hwsz : ws1 (z :: (p'' ++ ' ' :: r)) = none := by
              apply ws1_nows
              intro u t he
              injection he with h1 h2
              subst h1
              exact hz
            simp [matchCcore, hwsz]
        refine ⟨?_, ?_, ?_⟩
        · simp [matchA, hx, hws1]
        · simp [matchB, hx, hws1]
        · by_cases hacc : isAccChar y
          · simp [matchC, hx, hacc, hcore1, hcore2]
          · simp [matchC, hx, hacc, hcore1]
      · exact ⟨by simp [matchA, hx], by simp [matchB, hx], by simp [matchC, hx]⟩

/-- A nonempty concatenation text begins with a canonical symbol. -/
theorem concatShape_nextSym {r : List Char} (hr : ConcatShape r) (hne : r ≠ []) :
    NextSym r := by
  cases hr
  case nil => exact absurd rfl hne
  case last =>
    rename_i hs
    exact ⟨_, [], by simp, hs, Or.inl rfl⟩
  case cons =>
    rename_i s hs rest hrest hne2
    exact ⟨s, ' ' :: rest, rfl, hs, Or.inr ⟨rest, rfl⟩⟩

/-- The three phrase matchers fail at every position of a concatenation
of canonical symbols. -/
theorem matchABC_drop {T : List Char} (hT : ConcatShape T) :
    ∀ k, matchA (T.drop k) = none ∧ matchB (T.drop k) = none ∧
      matchC (T.drop k) = none := by
  induction hT with
  | nil =>
    intro k
    rw [List.drop_nil]
    exact ⟨rfl, rfl, rfl⟩
  | last s hs =>
    intro k
    exact matchABC_none_of_nows fun c hc => (vocab_char_id hs c (List.mem_of_mem_drop hc)).1
  | cons s hs rest hrest hne ih =>
    intro k
    rcases le_or_lt k s.length with hk | hk
    · rw [List.drop_append_of_le_length hk]
      exact matchABC_none_chunk
        (fun c hc => (vocab_char_id hs c (List.mem_of_mem_drop hc)).1)
        (concatShape_nextSym hrest hne)
    · have e : (s ++ ' ' :: rest).drop k = rest.drop (k - s.length - 1) := by
        obtain ⟨n, hn⟩ : ∃ n, k = (s ++ [' ']).length + n :=
          ⟨k - s.length - 1, by
            simp only [List.length_append, List.length_cons, List.length_nil]
            omega⟩
        have hn2 : k - s.length - 1 = n := by
          simp only [List.length_append, List.length_cons, List.length_nil] at hn
          omega
        rw [hn2, show s ++ ' ' :: rest = (s ++ [' ']) ++ rest by simp, hn,
          List.drop_append]
      rw [e]
      exact ih _

/-- The scanner returns nothing on an empty input. -/
theorem scanGo_nil_input {M : Type} (f : List Char → Option M) (restOf : M → List Char) :
    ∀ (fuel pos : Nat) (w : Bool), scanGo f restOf fuel [] pos w = [] := by
  intro fuel pos w
  cases fuel <;> rfl

/-- The scanner returns nothing when the matcher fails at every suffix. -/
theorem scanGo_nil {M : Type} (f : List Char → Option M) (restOf : M → List Char) :
    ∀ (fuel : Nat) (s : List Char) (pos : Nat) (w : Bool),
      (∀ k, f (s.drop k) = none) → scanGo f restOf fuel s pos w = [] := by
  intro fuel
  induction fuel with
  | zero =>
    intro s pos w h
    cases s <;> rfl
  | succ n ih =>
    intro s pos w h
    cases s with
    | nil => rfl
    | cons c cs =>
      have h0 : f (c :: cs) = none := h 0
      have hsc : (if w then none else f (c :: cs)) = none := by
        cases w
        · exact h0
        · rfl
      have e : scanGo f restOf (n + 1) (c :: cs) pos w
          = scanGo f restOf n cs (pos + 1) (isWordChar c) := by
        conv_lhs => unfold scanGo
        rw [hsc]
      rw [e]
      exact ih cs (pos + 1) (isWordChar c) fun k => h (k + 1)

/-- One scanner step on a failing position. -/
theorem scanGo_cons_none {M : Type} (f : List Char → Option M) (restOf : M → List Char)
    (fuel : Nat) (c : Char) (cs : List Char) (pos : Nat) (w : Bool)
    (hm : (if w then none else f (c :: cs)) = none) :
    scanGo f restOf (fuel + 1) (c :: cs) pos w =
      scanGo f restOf fuel cs (pos + 1) (isWordChar c) := by
  conv_lhs => unfold scanGo
  rw [hm]

/-- One scanner step on a successful match of positive width. -/
theorem scanGo_cons_some {M : Type} (f : List Char → Option M) (restOf : M → List Char)
    (fuel : Nat) (c : Char) (cs : List Char) (pos : Nat) (w : Bool) (m : M) (kk : Nat)
    (hm : (if w then none else f (c :: cs)) = some m)
    (hk : (c :: cs).length - (restOf m).length = kk) (hk0 : kk ≠ 0) :
    scanGo f restOf (fuel + 1) (c :: cs) pos w =
      (pos, m) :: scanGo f restOf fuel ((c :: cs).drop kk) (pos + kk)
        (isWordChar ((c :: cs).getD (kk - 1) ' ')) := by
  conv_lhs => unfold scanGo
  rw [hm]
  simp only [hk]
  rw [if_neg hk0]

/-- The bare chord matcher never fires at a separator space. -/
theorem ifW_matchD_space (w : Bool) (r : List Char) :
    (if w then none else matchD (' ' :: r)) = none := by
  cases w
  · show matchD (' ' :: r) = none
    rfl
  · rfl

set_option maxRecDepth 20000 in
/-- The bare chord pattern on a canonical symbol followed by a space:
it matches the whole symbol, splitting it into note group and inline
quality. -/
theorem matchD_vocab_sep {u : Char} (hu : u ∈ upperNotes) {mid : List Char}
    (hmid : mid ∈ accOpts) {qt : List Char} (hqt : qt ∈ sufOpts)
    (hex : ¬(mid = ['#'] ∧ qt = [])) (r' : List Char) :
    matchD ((u :: mid ++ qt) ++ ' ' :: r') =
      some ⟨(splitSym (u :: mid ++ qt)).1, symQual (u :: mid ++ qt), ' ' :: r'⟩ := by
  fin_cases hu <;> fin_cases hmid <;> fin_cases hqt <;>
    first
      | rfl
      | exact absurd ⟨rfl, rfl⟩ hex

set_option maxRecDepth 20000 in
/-- The bare chord pattern on a canonical symbol at the end of the text. -/
theorem matchD_vocab_end {u : Char} (hu : u ∈ upperNotes) {mid : List Char}
    (hmid : mid ∈ accOpts) {qt : List Char} (hqt : qt ∈ sufOpts)
    (hex : ¬(mid = ['#'] ∧ qt = [])) :
    matchD (u :: mid ++ qt) =
      some ⟨(splitSym (u :: mid ++ qt)).1, symQual (u :: mid ++ qt), []⟩ := by
  fin_cases hu <;> fin_cases hmid <;> fin_cases hqt <;>
    first
      | rfl
      | exact absurd ⟨rfl, rfl⟩ hex

set_option maxRecDepth 20000 in
/-- Layer D's chord construction reproduces a canonical symbol from its
note group and inline quality. -/
theorem sym_reconstruct {u : Char} (hu : u ∈ upperNotes) {mid : List Char}
    (hmid : mid ∈ accOpts) {qt : List Char} (hqt : qt ∈ sufOpts) :
    stripMajMin (pyCapitalize
        ((splitSym (u :: mid ++ qt)).1 ++ ((symQual (u :: mid ++ qt)).getD []))) =
      u :: mid ++ qt := by
  fin_cases hu <;> fin_cases hmid <;> fin_cases hqt <;> rfl

/-- On a space-separated concatenation of canonical symbols, the layer-D
scan finds exactly the symbols, one match per symbol, at their offsets. -/
theorem scanGo_concat :
    ∀ (l : List (List Char)), (∀ s ∈ l, s ∈ vocab) →
      ∀ (fuel : Nat), (concatSyms l).length ≤ fuel → ∀ (pos : Nat),
        scanGo matchD MD.rest fuel (concatSyms l) pos false = expectedD l pos := by
  intro l
  induction l with
  | nil =>
    intro _ fuel _ pos
    exact scanGo_nil_input _ _ _ _ _
  | cons s rest ih =>
    intro hv fuel hfuel pos
    obtain ⟨u, mid, qt, hu, hmid, hqt, hex, hseq⟩ := vocab_elim (hv s (by simp))
    subst hseq
    cases rest with
    | nil =>
      have hlen : (concatSyms [u :: mid ++ qt]).length = (mid ++ qt).length + 1 := rfl
      obtain ⟨f1, rfl⟩ : ∃ f1, fuel = f1 + 1 := ⟨fuel - 1, by omega⟩
      show scanGo matchD MD.rest (f1 + 1) (u :: (mid ++ qt)) pos false
        = expectedD [u :: mid ++ qt] pos
      rw [scanGo_cons_some matchD MD.rest f1 u (mid ++ qt) pos false
            ⟨(splitSym (u :: mid ++ qt)).1, symQual (u :: mid ++ qt), []⟩
            ((mid ++ qt).length + 1)
            (by exact matchD_vocab_end hu hmid hqt hex)
            (by
              show (u :: (mid ++ qt)).length - ([] : List Char).length
                = (mid ++ qt).length + 1
              simp only [List.length_cons, List.length_nil]
              omega)
            (by omega),
          List.drop_succ_cons, List.drop_length, scanGo_nil_input]
      rfl
    | cons r rs =>
      have hlen : (concatSyms ((u :: mid ++ qt) :: r :: rs)).length
          = (mid ++ qt).length + 1 + (1 + (concatSyms (r :: rs)).length) := by
        show ((u :: mid ++ qt) ++ ' ' :: concatSyms (r :: rs)).length = _
        simp only [List.length_cons, List.length_append]
        omega
      obtain ⟨f2, rfl⟩ : ∃ f2, fuel = f2 + 1 + 1 := ⟨fuel - 2, by omega⟩
      show scanGo matchD MD.rest (f2 + 1 + 1)
          (u :: ((mid ++ qt) ++ ' ' :: concatSyms (r :: rs))) pos false
        = expectedD ((u :: mid ++ qt) :: r :: rs) pos
      rw [scanGo_cons_some matchD MD.rest (f2 + 1) u
            ((mid ++ qt) ++ ' ' :: concatSyms (r :: rs)) pos false
            ⟨(splitSym (u :: mid ++ qt)).1, symQual (u :: mid ++ qt),
              ' ' :: concatSyms (r :: rs)⟩
            ((mid ++ qt).length + 1)
            (by exact matchD_vocab_sep hu hmid hqt hex (concatSyms (r :: rs)))
            (by
              show (u :: ((mid ++ qt) ++ ' ' :: concatSyms (r :: rs))).length
                  - (' ' :: concatSyms (r :: rs)).length = (mid ++ qt).length + 1
              simp only [List.length_cons, List.length_append]
              omega)
            (by omega),
          List.drop_succ_cons, List.drop_left,
          scanGo_cons_none matchD MD.rest f2 ' ' (concatSyms (r :: rs)) _ _
            (ifW_matchD_space _ _),
          show isWordChar ' ' = false from rfl,
          ih (fun x hx => hv x (List.mem_cons_of_mem _ hx)) f2 (by omega)
            (pos + ((mid ++ qt).length + 1) + 1)]
      rfl

/-- With both claimed-note sets empty, the layer-D fold appends one chord
per match — built from the note group and inline quality — and never
skips. -/
theorem foldD_empty_sets (ms : List (Nat × MD)) :
    ∀ st : ExtState, st.fsNotes = [] → st.phNotes = [] →
      ms.foldl stepD st = ⟨st.positions ++ ms.map fun pm =>
        (pm.1, stripMajMin (pyCapitalize (pm.2.noteg ++ pm.2.qual.getD []))), [], []⟩ := by
  induction ms with
  | nil =>
    intro st h1 h2
    obtain ⟨ps, fs, ph⟩ := st
    simp only [ExtState.fsNotes] at h1
    simp only [ExtState.phNotes] at h2
    subst h1
    subst h2
    simp
  | cons pm ms ih =>
    intro st h1 h2
    obtain ⟨ps, fs, ph⟩ := st
    simp only [ExtState.fsNotes] at h1
    simp only [ExtState.phNotes] at h2
    subst h1
    subst h2
    have hstep : stepD ⟨ps, [], []⟩ pm =
        ⟨ps ++ [(pm.1, stripMajMin (pyCapitalize (pm.2.noteg ++ pm.2.qual.getD [])))],
          [], []⟩ := rfl
    rw [List.foldl_cons, hstep, ih _ rfl rfl]
    simp

/-- Every expected layer-D match starts at or after the base offset. -/
theorem expectedD_offs_ge : ∀ (l : List (List Char)) (pos : Nat),
    ∀ pm ∈ expectedD l pos, pos ≤ pm.1 := by
  intro l
  induction l with
  | nil =>
    intro pos pm hpm
    simp [expectedD] at hpm
  | cons s rest ih =>
    intro pos pm hpm
    cases rest with
    | nil =>
      simp only [expectedD, List.mem_singleton] at hpm
      subst hpm
      exact Nat.le_refl _
    | cons r rs =>
      simp only [expectedD] at hpm
      rcases List.mem_cons.mp hpm with rfl | hpm
      · exact Nat.le_refl _
      · have := ih (pos + s.length + 1) pm hpm
        omega

/-- The expected layer-D matches are listed in nondecreasing offset
order. -/
theorem expectedD_offs_pairwise : ∀ (l : List (List Char)) (pos : Nat),
    (expectedD l pos).Pairwise fun a b => a.1 ≤ b.1 := by
  intro l
  induction l with
  | nil => intro pos; simp [expectedD]
  | cons s rest ih =>
    intro pos
    cases rest with
    | nil => simp [expectedD]
    | cons r rs =>
      simp only [expectedD]
      refine List.Pairwise.cons ?_ (ih _)
      intro pm hpm
      have := expectedD_offs_ge (r :: rs) (pos + s.length + 1) pm hpm
      show pos ≤ pm.1
      omega

/-- Layer D's chord construction maps the expected matches back to the
symbols themselves. -/
theorem expectedD_chords : ∀ (l : List (List Char)), (∀ s ∈ l, s ∈ vocab) →
    ∀ pos : Nat, (expectedD l pos).map (fun pm =>
        stripMajMin (pyCapitalize (pm.2.noteg ++ pm.2.qual.getD []))) = l := by
  intro l
  induction l with
  | nil => intro hv pos; rfl
  | cons s rest ih =>
    intro hv pos
    obtain ⟨u, mid, qt, hu, hmid, hqt, hex, rfl⟩ :=
      vocab_elim (hv s (List.mem_cons_self _ _))
    have hrec := sym_reconstruct hu hmid hqt
    cases rest with
    | nil =>
      show [stripMajMin (pyCapitalize
          ((splitSym (u :: mid ++ qt)).1 ++ ((symQual (u :: mid ++ qt)).getD [])))]
        = [u :: mid ++ qt]
      rw [hrec]
    | cons r rs =>
      simp only [expectedD, List.map_cons]
      rw [show (stripMajMin (pyCapitalize
            ((pos, (⟨(splitSym (u :: mid ++ qt)).1, symQual (u :: mid ++ qt),
              ' ' :: concatSyms (r :: rs)⟩ : MD)).2.noteg ++
              ((pos, (⟨(splitSym (u :: mid ++ qt)).1, symQual (u :: mid ++ qt),
                ' ' :: concatSyms (r :: rs)⟩ : MD)).2.qual.getD [])))) =
          stripMajMin (pyCapitalize ((splitSym (u :: mid ++ qt)).1 ++
            ((symQual (u :: mid ++ qt)).getD []))) from rfl,
        hrec, ih (fun x hx => hv x (List.mem_cons_of_mem _ hx)) _]

/-- Inserting an element whose key is largest appends it at the end. -/
theorem insOff_last {l : List (Nat × List Char)} {x : Nat × List Char}
    (h : ∀ y ∈ l, y.1 ≤ x.1) : insOff x l = l ++ [x] := by
  induction l with
  | nil => rfl
  | cons y ys ih =>
    show (if x.1 < y.1 then x :: y :: ys else y :: insOff x ys) = (y :: ys) ++ [x]
    rw [if_neg (by have := h y (List.mem_cons_self _ _); omega),
      ih fun z hz => h z (List.mem_cons_of_mem _ hz)]
    rfl

/-- Folding the stable insertion over an already nondecreasing list
appends it unchanged. -/
theorem foldl_insOff_sorted : ∀ (L acc : List (Nat × List Char)),
    (∀ y ∈ acc, ∀ x ∈ L, y.1 ≤ x.1) → L.Pairwise (fun a b => a.1 ≤ b.1) →
    L.foldl (fun acc x => insOff x acc) acc = acc ++ L := by
  intro L
  induction L with
  | nil =>
    intro acc h hp
    simp
  | cons x xs ih =>
    intro acc h hp
    rcases List.pairwise_cons.mp hp with ⟨hhead, htail⟩
    have hside : ∀ y ∈ acc ++ [x], ∀ z ∈ xs, y.1 ≤ z.1 := by
      intro y hy z hz
      rcases List.mem_append.mp hy with hy | hy
      · exact h y hy z (List.mem_cons_of_mem _ hz)
      · have he := List.mem_singleton.mp hy
        subst he
        exact hhead z hz
    rw [List.foldl_cons, insOff_last fun y hy => h y hy x (List.mem_cons_self _ _),
      ih (acc ++ [x]) hside htail, List.append_assoc]
    rfl

/-- The stable offset sort leaves a nondecreasing list unchanged. -/
theorem pySort_of_sorted {L : List (Nat × List Char)}
    (h : L.Pairwise fun a b => a.1 ≤ b.1) : pySort L = L := by
  have he := foldl_insOff_sorted L [] (by simp) h
  simpa using he

/-- First-occurrence dedup leaves a duplicate-free list unchanged when
nothing was seen yet. -/
theorem dedupGo_nodup_id : ∀ (l seen : List (List Char)),
    (∀ c ∈ l, seen.contains c = false) → l.Nodup → dedupGo seen l = l := by
  intro l
  induction l with
  | nil => intro seen h hn; rfl
  | cons c cs ih =>
    intro seen h hn
    rcases List.nodup_cons.mp hn with ⟨hc, hcs⟩
    have hside : ∀ x ∈ cs, (c :: seen).contains x = false := by
      intro x hx
      have h1 : x ∉ seen := by
        have hb := h x (List.mem_cons_of_mem _ hx)
        simpa using hb
      have h2 : x ≠ c := fun he => hc (he ▸ hx)
      simp [h1, h2]
    show (if seen.contains c then dedupGo seen cs else c :: dedupGo (c :: seen) cs)
      = c :: cs
    rw [h c (List.mem_cons_self _ _), if_neg Bool.false_ne_true,
      ih (c :: seen) hside hcs]

/-- A concatenation starting with a canonical symbol is nonempty. -/
theorem concatSyms_cons_ne (r : List Char) (rs : List (List Char)) (hr : r ∈ vocab) :
    concatSyms (r :: rs) ≠ [] := by
  cases rs with
  | nil => exact vocab_ne_nil hr
  | cons x xs => simp [concatSyms]

/-- Concatenations of canonical symbols have the concatenation shape. -/
theorem concatShape_concat : ∀ (l : List (List Char)), (∀ s ∈ l, s ∈ vocab) →
    ConcatShape (concatSyms l) := by
  intro l
  induction l with
  | nil => intro _; exact ConcatShape.nil
  | cons s rest ih =>
    intro hv
    cases rest with
    | nil => exact ConcatShape.last s (hv s (by simp))
    | cons r rs =>
      exact ConcatShape.cons s (hv s (by simp)) (concatSyms (r :: rs))
        (ih fun x hx => hv x (List.mem_cons_of_mem _ hx))
        (concatSyms_cons_ne r rs (hv r (by simp)))

/-- No character of a concatenation of canonical symbols is a dash. -/
theorem concat_chars_id : ∀ (l : List (List Char)), (∀ s ∈ l, s ∈ vocab) →
    ∀ c ∈ concatSyms l, normChar c = c := by
  intro l
  induction l with
  | nil =>
    intro _ c hc
    simp [concatSyms] at hc
  | cons s rest ih =>
    intro hv c hc
    cases rest with
    | nil => exact (vocab_char_id (hv s (by simp)) c hc).2
    | cons r rs =>
      have hc2 : c ∈ s ++ ' ' :: concatSyms (r :: rs) := hc
      rcases List.mem_append.mp hc2 with hcs | hctail
      · exact (vocab_char_id (hv s (by simp)) c hcs).2
      · rcases List.mem_cons.mp hctail with rfl | hct
        · decide
        · exact ih (fun x hx => hv x (List.mem_cons_of_mem _ hx)) c hct

/-- The hyphen normalization is the identity on a concatenation of
canonical symbols. -/
theorem normalizeText_concat (l : List (List Char)) (hv : ∀ s ∈ l, s ∈ vocab) :
    normalizeText (concatSyms l) = concatSyms l := by
  unfold normalizeText
  rw [List.map_congr_left (concat_chars_id l hv)]
  simp

/-- C3 (amended): canonicalization is idempotent on the re-parseable part
of the output vocabulary.  For every duplicate-free list of canonical
symbols drawn from `vocab` — a note letter, an optional accidental, and
an optional inline quality suffix, excluding the bare sharp forms and the
spoken-number forms, which the counterexample shows are not re-extracted
— running `extract_chords` on their space-separated concatenation returns
exactly the same symbols in the same order. -/
theorem claim_C3_amended (l : List String) (hv : ∀ s ∈ l, s.data ∈ vocab)
    (hn : l.Nodup) :
    extract_chords ⟨concatSyms (l.map String.data)⟩ = l := by
  have hvd : ∀ s ∈ l.map String.data, s ∈ vocab := by
    intro s hs
    rcases List.mem_map.mp hs with ⟨x, hx, rfl⟩
    exact hv x hx
  have hnd : (l.map String.data).Nodup :=
    hn.map fun a b hab => congrArg String.mk hab
  have hshape : ConcatShape (concatSyms (l.map String.data)) :=
    concatShape_concat _ hvd
  have habc := matchABC_drop hshape
  have hA : scanA (concatSyms (l.map String.data)) = [] :=
    scanGo_nil matchA MA.rest _ _ 0 false fun k => (habc k).1
  have hB : scanB (concatSyms (l.map String.data)) = [] :=
    scanGo_nil matchB MB.rest _ _ 0 false fun k => (habc k).2.1
  have hC : scanC (concatSyms (l.map String.data)) = [] :=
    scanGo_nil matchC MC.rest _ _ 0 false fun k => (habc k).2.2
  have hD : scanD (concatSyms (l.map String.data)) = expectedD (l.map String.data) 0 :=
    scanGo_concat (l.map String.data) hvd (concatSyms (l.map String.data)).length
      (Nat.le_refl _) 0
  have hrun : runLayers (concatSyms (l.map String.data))
      = ⟨(expectedD (l.map String.data) 0).map fun pm =>
          (pm.1, stripMajMin (pyCapitalize (pm.2.noteg ++ pm.2.qual.getD []))),
          [], []⟩ := by
    unfold runLayers
    simp only [hA, hB, hC, hD, List.foldl_nil]
    exact foldD_empty_sets _ _ rfl rfl
  have hpos : rawPositions (concatSyms (l.map String.data))
      = (expectedD (l.map String.data) 0).map fun pm =>
          (pm.1, stripMajMin (pyCapitalize (pm.2.noteg ++ pm.2.qual.getD []))) := by
    unfold rawPositions
    rw [normalizeText_concat _ hvd, hrun]
  have hpw : pySort ((expectedD (l.map String.data) 0).map fun pm =>
        (pm.1, stripMajMin (pyCapitalize (pm.2.noteg ++ pm.2.qual.getD []))))
      = (expectedD (l.map String.data) 0).map fun pm =>
          (pm.1, stripMajMin (pyCapitalize (pm.2.noteg ++ pm.2.qual.getD []))) := by
    apply pySort_of_sorted
    exact List.Pairwise.map _ (fun a b hab => hab)
      (expectedD_offs_pairwise (l.map String.data) 0)
  have hsnd : (((expectedD (l.map String.data) 0).map fun pm =>
        (pm.1, stripMajMin (pyCapitalize (pm.2.noteg ++ pm.2.qual.getD [])))).map
          Prod.snd)
      = l.map String.data := by
    rw [List.map_map]
    exact expectedD_chords (l.map String.data) hvd 0
  have hded : dedupGo [] (l.map String.data) = l.map String.data :=
    dedupGo_nodup_id (l.map String.data) [] (fun c hc => rfl) hnd
  show (extractL (concatSyms (l.map String.data))).map (fun d => (⟨d⟩ : String)) = l
  unfold extractL
  rw [hpos, hpw, hsnd, hded, List.map_map]
  show l.map id = l
  exact List.map_id l

/-- C3 (amended) witness: a concrete duplicate-free list of canonical
symbols re-extracted unchanged from its space-separated concatenation. -/
theorem claim_C3_amended_witness :
    (∀ s ∈ (["F#m", "Bb", "Cmaj7"] : List String), s.data ∈ vocab) ∧
    (["F#m", "Bb", "Cmaj7"] : List String).Nodup ∧
    extract_chords ⟨concatSyms ((["F#m", "Bb", "Cmaj7"] : List String).map
      String.data)⟩ = ["F#m", "Bb", "Cmaj7"] :=
  ⟨by decide, by decide,
    claim_C3_amended ["F#m", "Bb", "Cmaj7"] (by decide) (by decide)⟩
